import Mathlib

/-!
Verification of the streamlet metrics-collection pipeline core.

The definitions below are a shallow embedding of the Python sources:
  * `src/core/abstract.py`  (routing filters, `AbstractProcessor.accepts_from`)
  * `src/core/task.py`      (task pipeline, `extract_metrics`, `process_result`, `run`)
  * `src/core/flow.py`      (`StreamletFlow.load_extensions` template merge)
  * `src/core/helpers.py`   (`flatten`)
  * `src/core/validation/validators.py` (`EnvironmentVar`, `TimeToSeconds`)
  * `src/core/validation/helpers.py`    (`walk_similar_key`, `print_validation_error`, `validate`)
plus executable models of the Python standard-library routines those functions
call (`fnmatch`, `os.path.expandvars`, `os.path.expanduser`, `difflib`).

Machine integers do not occur on the verified paths; Python numbers are
modelled as `Int`/`Rat`.  Fallible Python code (exceptions) is modelled with
`Except`.  Recursive scans are written with explicit fuel so that every
definition reduces by `rfl`/`decide`; each top-level wrapper supplies fuel
larger than any quantity the scan can consume.
-/

namespace Streamlet

/-! ## Python standard library: `fnmatch` glob matching

Model of `fnmatch.fnmatch` on a POSIX system (`os.path.normcase` is the
identity there).  Supports `*`, `?` and `[...]` character classes with `!`
negation and `a-z` ranges, as produced by `fnmatch.translate`. -/

/-- Split a character list at its first `]`. -/
def findClose : List Char → Option (List Char × List Char)
  | [] => none
  | ']' :: rest => some ([], rest)
  | c :: rest => (findClose rest).map (fun p => (c :: p.1, p.2))

/-- Scan a bracket expression body for the closing `]`.  Mirrors
`fnmatch.translate`: a `]` that is the first character of the body is a
literal member.  Returns the characters inside and the rest after `]`. -/
def bracketClose (body : List Char) : Option (List Char × List Char) :=
  match body with
  | ']' :: rest => (findClose rest).map (fun p => (']' :: p.1, p.2))
  | _ => findClose body

/-- Membership in a glob character class, with `a-z` ranges.  As in
`fnmatch.translate` (CPython ≥ 3.7), a range whose start exceeds its end is
empty, and a trailing `-` is a literal. -/
def inBracket : List Char → Char → Bool
  | a :: '-' :: b :: rest, c => (a ≤ c && c ≤ b) || inBracket rest c
  | a :: rest, c => a == c || inBracket rest c
  | [], _ => false

/-- Core glob matcher with fuel.  Mirrors the regular expression produced by
`fnmatch.translate`: `*` matches any (possibly empty) run, `?` any single
character, `[...]`/`[!...]` a character class, anything else itself; an
unterminated `[` is a literal. -/
def globMatchAux : Nat → List Char → List Char → Bool
  | 0, _, _ => false
  | _ + 1, [], s => s.isEmpty
  | fuel + 1, '*' :: ps, s =>
    globMatchAux fuel ps s ||
      match s with
      | [] => false
      | _ :: s' => globMatchAux fuel ('*' :: ps) s'
  | fuel + 1, '?' :: ps, s =>
    match s with
    | [] => false
    | _ :: s' => globMatchAux fuel ps s'
  | fuel + 1, '[' :: ps, s =>
    match ps with
    | '!' :: ps' =>
      match bracketClose ps' with
      | some (inside, after) =>
        match s with
        | [] => false
        | c :: s' => !inBracket inside c && globMatchAux fuel after s'
      | none =>
        match s with
        | c :: s' => '[' == c && globMatchAux fuel ps s'
        | [] => false
    | _ =>
      match bracketClose ps with
      | some (inside, after) =>
        match s with
        | [] => false
        | c :: s' => inBracket inside c && globMatchAux fuel after s'
      | none =>
        match s with
        | c :: s' => '[' == c && globMatchAux fuel ps s'
        | [] => false
  | fuel + 1, p :: ps, s =>
    match s with
    | [] => false
    | c :: s' => p == c && globMatchAux fuel ps s'

/-- `fnmatch.fnmatch name pattern` on POSIX. -/
def fnmatch (name pattern : String) : Bool :=
  globMatchAux (2 * (pattern.length + name.length) + 2) pattern.toList name.toList

/-- `fnmatch.filter names pattern`: keeps the order of `names`. -/
def fnmatchFilter (names : List String) (pattern : String) : List String :=
  names.filter (fun n => fnmatch n pattern)

/-! ## Routing / filter engine (`AbstractProcessor.accepts_from`)

`src/core/abstract.py` lines 141-178: a processor stores the four optional
glob-pattern lists from its configuration and decides acceptance of a
(source, task) pair.  In the source, inputs play the role the spec calls
"sources". -/

/-- The four routing filter fields extracted from a processor configuration
(`AbstractProcessor.__init__`, `filter_keys`).  A `none` entry corresponds to
the Python value `None` (filter unset). -/
structure Filters where
  include_inputs : Option (List String)
  exclude_inputs : Option (List String)
  include_tasks : Option (List String)
  exclude_tasks : Option (List String)
deriving Repr, DecidableEq

/-- Stage 4 of `accepts_from`: the `exclude_tasks` check. -/
def acceptsStage4 (fl : Filters) (taskName : String) : Bool :=
  match fl.exclude_tasks with
  | some pats => if pats.any (fun p => fnmatch taskName p) then false else true
  | none => true

/-- Stage 3 of `accepts_from`: the `include_tasks` check, then stage 4. -/
def acceptsStage3 (fl : Filters) (taskName : String) : Bool :=
  match fl.include_tasks with
  | some pats =>
    if ¬pats.any (fun p => fnmatch taskName p) then false else acceptsStage4 fl taskName
  | none => acceptsStage4 fl taskName

/-- Stage 2 of `accepts_from`: the `exclude_inputs` check, then stage 3. -/
def acceptsStage2 (fl : Filters) (inputName taskName : String) : Bool :=
  match fl.exclude_inputs with
  | some pats =>
    if pats.any (fun p => fnmatch inputName p) then false else acceptsStage3 fl taskName
  | none => acceptsStage3 fl taskName

/-- `AbstractProcessor.accepts_from(input_name, task_name, ignore_enabled)`,
with the processor's `enabled` property passed explicitly.  Transcribes the
early-return chain of the source: disabled check, `include_inputs`,
`exclude_inputs`, `include_tasks`, `exclude_tasks`, accept. -/
def acceptsFrom (enabled : Bool) (fl : Filters) (inputName taskName : String)
    (ignoreEnabled : Bool) : Bool :=
  if enabled = false ∧ ¬ignoreEnabled then false
  else
    match fl.include_inputs with
    | some pats =>
      if ¬pats.any (fun p => fnmatch inputName p) then false
      else acceptsStage2 fl inputName taskName
    | none => acceptsStage2 fl inputName taskName

/-- The routing decision as the spec (§4.4) words it: a conjunction of the
five conditions — enabled unless ignored, some `include_sources` pattern
matches (when set), no `exclude_sources` pattern matches (when set), likewise
for tasks.  Stated as one aggregate condition, to be compared with the
short-circuit chain `acceptsFrom` transcribed from the code. -/
def specAccepts (enabled : Bool) (fl : Filters) (sourceName taskName : String)
    (ignoreEnabled : Bool) : Bool :=
  (ignoreEnabled || enabled)
    && (match fl.include_inputs with
        | some pats => pats.any (fun p => fnmatch sourceName p)
        | none => true)
    && (match fl.exclude_inputs with
        | some pats => !pats.any (fun p => fnmatch sourceName p)
        | none => true)
    && (match fl.include_tasks with
        | some pats => pats.any (fun p => fnmatch taskName p)
        | none => true)
    && (match fl.exclude_tasks with
        | some pats => !pats.any (fun p => fnmatch taskName p)
        | none => true)

/-- A list has no element satisfying `f` iff `any` fails: bridges the decided
universal form and the boolean `any` form. -/
theorem decide_all_false_eq_not_any (l : List String) (f : String → Bool) :
    (decide (∀ x ∈ l, f x = false)) = !decide (∃ x ∈ l, f x = true) := by
  rw [← decide_not]
  refine decide_eq_decide.mpr ?_
  simp

/-- Filters of the C2 example: `include_tasks=["foo*"]`, `exclude_tasks=["foobar"]`. -/
def fooFilters : Filters :=
  { include_inputs := none, exclude_inputs := none
    include_tasks := some ["foo*"], exclude_tasks := some ["foobar"] }

/-- C2.  Routing: `accepts_from` decides exactly the spec's ordered filter
conjunction — enabled (unless ignored), then include/exclude source patterns,
then include/exclude task patterns — and on filters
`include_tasks=["foo*"]`, `exclude_tasks=["foobar"]` the task
`"foobar_extra"` is accepted while `"foobar"` is rejected. -/
theorem accepts_from_matches_spec :
    (∀ (enabled : Bool) (fl : Filters) (src task : String) (ig : Bool),
      acceptsFrom enabled fl src task ig = specAccepts enabled fl src task ig)
    ∧ acceptsFrom true fooFilters "in" "foobar_extra" false = true
    ∧ acceptsFrom true fooFilters "in" "foobar" false = false := by
  refine ⟨?_, by decide, by decide⟩
  intro enabled fl src task ig
  obtain ⟨ii, ei, it, et⟩ := fl
  cases ii <;> cases ei <;> cases it <;> cases et <;>
    simp [acceptsFrom, acceptsStage2, acceptsStage3, acceptsStage4, specAccepts] <;>
    cases enabled <;> cases ig <;>
    simp [List.any_eq, Bool.and_assoc, decide_all_false_eq_not_any]

/-! ## Shared character/string helpers (models of Python `str` methods) -/

/-- ASCII letter, the character class `[a-zA-Z]` of the regular expression in
`TimeToSeconds`. -/
def isAsciiAlpha (c : Char) : Bool :=
  ('a' ≤ c && c ≤ 'z') || ('A' ≤ c && c ≤ 'Z')

/-- Decimal value of a digit string, the value Python's `int`/`float` give a
pure digit sequence. -/
def natOfDigits (l : List Char) : Nat :=
  l.foldl (fun a c => a * 10 + (c.toNat - 48)) 0

/-- Python `str.isdigit` for ASCII content: nonempty and all digits. -/
def listIsDigit (l : List Char) : Bool :=
  !l.isEmpty && l.all Char.isDigit

/-- Python `str.removeprefix("-")`. -/
def stripMinus (l : List Char) : List Char :=
  if l.headD ' ' = '-' then l.tail else l

/-- Python `str.replace(".", "", 1)`: drop the first `.` only. -/
def removeFirstDot : List Char → List Char
  | [] => []
  | c :: rest => if c = '.' then rest else c :: removeFirstDot rest

/-- Python `str.split(sep)` for a one-character separator (the source's
separators `":"` and the default `nested_attr_seperator` `"."` are one
character). -/
def splitOnChar (sep : Char) (l : List Char) : List (List Char) :=
  l.foldr
    (fun c acc =>
      if c = sep then [] :: acc
      else
        match acc with
        | h :: t => (c :: h) :: t
        | [] => [[c]])
    [[]]

/-- Python `sep.join(parts)` for a one-character separator. -/
def joinChar (sep : Char) : List (List Char) → List Char
  | [] => []
  | [p] => p
  | p :: rest => p ++ sep :: joinChar sep rest

/-- Python `str.lower` (ASCII content). -/
def listToLower (l : List Char) : List Char :=
  l.map Char.toLower

/-- Python truthiness of `str.strip()`: true iff some non-whitespace char. -/
def isBlankChars (l : List Char) : Bool :=
  l.all Char.isWhitespace

/-! ### Properties of `splitOnChar`/`joinChar` -/

theorem splitOnChar_ne_nil (sep : Char) (l : List Char) : splitOnChar sep l ≠ [] := by
  induction l with
  | nil => simp [splitOnChar]
  | cons c rest ih =>
    simp only [splitOnChar, List.foldr_cons]
    by_cases h : c = sep
    · simp [h]
    · simp only [if_neg h]
      rcases hr : (splitOnChar sep rest) with _ | ⟨h', t'⟩
      · exact absurd hr ih
      · simp only [splitOnChar] at hr
        rw [hr]
        simp

theorem splitOnChar_cons_sep (sep : Char) (l : List Char) :
    splitOnChar sep (sep :: l) = [] :: splitOnChar sep l := by
  simp [splitOnChar]

theorem splitOnChar_cons_ne (sep c : Char) (l : List Char) (h : c ≠ sep) :
    splitOnChar sep (c :: l) =
      (c :: (splitOnChar sep l).headD []) :: (splitOnChar sep l).tail := by
  simp only [splitOnChar, List.foldr_cons, if_neg h]
  rcases hr : (splitOnChar sep l) with _ | ⟨h', t'⟩
  · exact absurd hr (splitOnChar_ne_nil sep l)
  · simp only [splitOnChar] at hr
    rw [hr]
    simp

theorem splitOnChar_append_free (sep : Char) (xs l : List Char) (h : sep ∉ xs) :
    splitOnChar sep (xs ++ l) =
      (xs ++ (splitOnChar sep l).headD []) :: (splitOnChar sep l).tail := by
  induction xs with
  | nil =>
    rcases hr : (splitOnChar sep l) with _ | ⟨h', t'⟩
    · exact absurd hr (splitOnChar_ne_nil sep l)
    · simp [hr]
  | cons c rest ih =>
    have hc : c ≠ sep := by
      intro hc; exact h (hc ▸ List.mem_cons_self c rest)
    have hrest : sep ∉ rest := fun hm => h (List.mem_cons_of_mem c hm)
    rw [List.cons_append, splitOnChar_cons_ne sep c (rest ++ l) hc, ih hrest]
    simp

/-- Splitting inverts joining when no part contains the separator. -/
theorem splitOnChar_joinChar (sep : Char) (parts : List (List Char))
    (hne : parts ≠ []) (hfree : ∀ p ∈ parts, sep ∉ p) :
    splitOnChar sep (joinChar sep parts) = parts := by
  induction parts with
  | nil => exact absurd rfl hne
  | cons p rest ih =>
    rcases rest with _ | ⟨q, rest'⟩
    · have hp : sep ∉ p := hfree p (List.mem_cons_self p [])
      have := splitOnChar_append_free sep p [] hp
      simpa [joinChar, splitOnChar] using this
    · have hp : sep ∉ p := hfree p (List.mem_cons_self p _)
      have hfree' : ∀ r ∈ q :: rest', sep ∉ r := fun r hr =>
        hfree r (List.mem_cons_of_mem p hr)
      have ihr := ih (by simp) hfree'
      show splitOnChar sep (p ++ sep :: joinChar sep (q :: rest')) = _
      rw [splitOnChar_append_free sep p _ hp, splitOnChar_cons_sep, ihr]
      simp

/-! ## Duration parsing (`TimeToSeconds`, validators.py lines 135-177)

Python numbers are modelled as `Rat`; on the verified inputs the float
arithmetic of the source is exact, so no rounding is modelled.  Exceptions
(`ValueInvalid`) are modelled as `Except.error`. -/

/-- Value of Python `int(s)` on a string of shape `[-]digits`. -/
def pyIntOfChars (l : List Char) : Int :=
  if l.headD ' ' = '-' then -(natOfDigits l.tail : Int) else (natOfDigits l : Int)

/-- Split at the first `.` for float parsing. -/
def splitAtDot : List Char → List Char × List Char
  | [] => ([], [])
  | c :: rest =>
    if c = '.' then ([], rest)
    else ((c :: (splitAtDot rest).1, (splitAtDot rest).2))

/-- Unsigned part of Python `float(s)`: integer digits, then fractional
digits scaled by their length. -/
def pyFloatCore (l : List Char) : ℚ :=
  (natOfDigits (splitAtDot l).1 : ℚ) +
    (natOfDigits (splitAtDot l).2 : ℚ) / (10 : ℚ) ^ (splitAtDot l).2.length

/-- Value of Python `float(s)` on a string of shape `[-]digits[.digits]`
(the only shape the guarded call site allows). -/
def pyFloatOfChars (l : List Char) : ℚ :=
  if l.headD ' ' = '-' then -(pyFloatCore l.tail) else pyFloatCore l

/-- `re.search(r"(\d+)([a-zA-Z]+)", part)`: leftmost digit run immediately
followed by a letter; returns the full digit run and the maximal letter run.
The accumulator carries the digit run scanned so far. -/
def searchNumUnitGo : Option (List Char) → List Char → Option (List Char × List Char)
  | _, [] => none
  | acc, c :: rest =>
    if c.isDigit then searchNumUnitGo (some (acc.getD [] ++ [c])) rest
    else if isAsciiAlpha c && acc.isSome then
      some (acc.getD [], c :: rest.takeWhile isAsciiAlpha)
    else searchNumUnitGo none rest

/-- The factor table of `TimeToSeconds.__call__`; `none` models the
`KeyError` for an unknown unit. -/
def unitFactor : List Char → Option ℚ
  | ['m', 's'] => some (1 / 1000)
  | ['s'] => some 1
  | ['m'] => some 60
  | ['h'] => some 3600
  | ['d'] => some 86400
  | _ => none

/-- One iteration of the part loop: lower-case the token, search for
`(\d+)([a-zA-Z]+)`, convert.  The matched digit group always satisfies
`isdecimal`, so the source's dead `int(int)` alternative is unreachable and
the contribution is `float(val) * factors[unit]`. -/
def parseTimePart (part : List Char) : Except String ℚ :=
  match searchNumUnitGo none (listToLower part) with
  | none => .error "Invalid time format"
  | some (val, unit) =>
    match unitFactor unit with
    | none => .error "Invalid time format"
    | some f => .ok ((natOfDigits val : ℚ) * f)

/-- The `for part in t_parts` loop: blank parts are skipped, the
contributions of the rest are summed, the first bad part raises. -/
def sumTimeParts : List (List Char) → Except String ℚ
  | [] => .ok 0
  | p :: rest =>
    if isBlankChars p then sumTimeParts rest
    else do
      let v ← parseTimePart p
      let r ← sumTimeParts rest
      pure (v + r)

/-- `TimeToSeconds.__call__` on a string argument (non-string arguments are
returned unchanged by the source).  Transcribes the source: integer-string
check, float-string check, otherwise `:`-split token sum with a leading `-`
negating the total. -/
def timeToSeconds (value : String) : Except String ℚ :=
  let l := value.toList
  if listIsDigit (stripMinus l) then .ok ((pyIntOfChars l : ℚ))
  else if listIsDigit (removeFirstDot (stripMinus l)) then .ok (pyFloatOfChars l)
  else do
    let r ← sumTimeParts (splitOnChar ':' l)
    pure (if l.headD ' ' = '-' then -r else r)

/-! ### Character facts -/

theorem toLower_of_isDigit (c : Char) (h : c.isDigit = true) : c.toLower = c := by
  simp [Char.isDigit] at h
  obtain ⟨h1, h2⟩ := h
  have h1' : (48 : Nat) ≤ c.val.toNat := h1
  have h2' : c.val.toNat ≤ 57 := h2
  simp [Char.toLower, Char.toNat]
  intro h3 h4
  omega

theorem isWhitespace_eq_false_of_isDigit (c : Char) (h : c.isDigit = true) :
    c.isWhitespace = false := by
  simp [Char.isDigit] at h
  obtain ⟨h1, h2⟩ := h
  have h1' : (48 : Nat) ≤ c.val.toNat := h1
  by_contra hw
  rw [Bool.not_eq_false] at hw
  simp [Char.isWhitespace] at hw
  rcases hw with ((hc | hc) | hc) | hc <;> subst hc <;> exact absurd h1' (by decide)

theorem ne_minus_of_isDigit (c : Char) (h : c.isDigit = true) : c ≠ '-' := by
  intro hc
  rw [hc] at h
  simp [Char.isDigit] at h

theorem ne_dot_of_isDigit (c : Char) (h : c.isDigit = true) : c ≠ '.' := by
  intro hc
  rw [hc] at h
  simp [Char.isDigit] at h

theorem ne_colon_of_isDigit (c : Char) (h : c.isDigit = true) : c ≠ ':' := by
  intro hc
  rw [hc] at h
  simp [Char.isDigit] at h

/-! ### Shape lemmas for the duration parser -/

theorem listIsDigit_eq_false_of_mem (l : List Char) (c : Char) (hc : c ∈ l)
    (h : c.isDigit = false) : listIsDigit l = false := by
  simp [listIsDigit]
  intro _
  exact ⟨c, hc, by simp [h]⟩

theorem mem_removeFirstDot (l : List Char) (c : Char) (h : c ≠ '.') (hm : c ∈ l) :
    c ∈ removeFirstDot l := by
  induction l with
  | nil => cases hm
  | cons d rest ih =>
    by_cases hd : d = '.'
    · subst hd
      simp [removeFirstDot]
      rcases List.mem_cons.mp hm with hc | hm'
      · exact absurd hc h
      · exact hm'
    · rw [removeFirstDot, if_neg hd]
      rcases List.mem_cons.mp hm with hc | hm'
      · exact hc ▸ List.mem_cons_self _ _
      · exact List.mem_cons_of_mem _ (ih hm')

theorem removeFirstDot_append (ip fp : List Char) (h : '.' ∉ ip) :
    removeFirstDot (ip ++ '.' :: fp) = ip ++ fp := by
  induction ip with
  | nil => simp [removeFirstDot]
  | cons c rest ih =>
    have hc : c ≠ '.' := fun hh => h (hh ▸ List.mem_cons_self c rest)
    have hrest : '.' ∉ rest := fun hm => h (List.mem_cons_of_mem c hm)
    rw [List.cons_append, removeFirstDot, if_neg hc, ih hrest, List.cons_append]

theorem splitAtDot_append (ip fp : List Char) (h : '.' ∉ ip) :
    splitAtDot (ip ++ '.' :: fp) = (ip, fp) := by
  induction ip with
  | nil => simp [splitAtDot]
  | cons c rest ih =>
    have hc : c ≠ '.' := fun hh => h (hh ▸ List.mem_cons_self c rest)
    have hrest : '.' ∉ rest := fun hm => h (List.mem_cons_of_mem c hm)
    rw [List.cons_append, splitAtDot, ih hrest]
    simp [hc]

theorem stripMinus_of_head (l : List Char) (h : l.headD ' ' ≠ '-') :
    stripMinus l = l := by
  rw [stripMinus, if_neg h]

theorem pyIntOfChars_of_head (l : List Char) (h : l.headD ' ' ≠ '-') :
    pyIntOfChars l = (natOfDigits l : Int) := by
  rw [pyIntOfChars, if_neg h]

theorem pyFloatOfChars_of_head (l : List Char) (h : l.headD ' ' ≠ '-') :
    pyFloatOfChars l = pyFloatCore l := by
  rw [pyFloatOfChars, if_neg h]

/-! ### The regular-expression search on digit-unit tokens -/

theorem searchNumUnitGo_digits (dl : List Char) (pre : List Char) (c : Char)
    (cs : List Char) (hdl : dl.all Char.isDigit = true) (hc : c.isDigit = false)
    (hca : isAsciiAlpha c = true) :
    searchNumUnitGo (some pre) (dl ++ c :: cs) =
      some (pre ++ dl, c :: cs.takeWhile isAsciiAlpha) := by
  induction dl generalizing pre with
  | nil =>
    simp [searchNumUnitGo, hc, hca]
  | cons d rest ih =>
    simp only [List.all_cons, Bool.and_eq_true] at hdl
    rw [List.cons_append, searchNumUnitGo]
    simp only [hdl.1, if_pos, Option.getD_some]
    rw [ih (pre ++ [d]) hdl.2]
    simp

theorem searchNumUnitGo_cons_skip (c : Char) (l : List Char) (hc : c.isDigit = false) :
    searchNumUnitGo none (c :: l) = searchNumUnitGo none l := by
  simp [searchNumUnitGo, hc]

/-! ### Duration tokens -/

/-- The five duration units accepted by `TimeToSeconds`. -/
inductive TimeUnit
  | ms
  | s
  | m
  | h
  | d
deriving DecidableEq, Repr

/-- The unit suffix as written in a duration string. -/
def unitChars : TimeUnit → List Char
  | .ms => ['m', 's']
  | .s => ['s']
  | .m => ['m']
  | .h => ['h']
  | .d => ['d']

/-- The factor table as rational numbers. -/
def unitFactorQ : TimeUnit → ℚ
  | .ms => 1 / 1000
  | .s => 1
  | .m => 60
  | .h => 3600
  | .d => 86400

/-- A `<number><unit>` token as a character list. -/
def renderToken (t : List Char × TimeUnit) : List Char :=
  t.1 ++ unitChars t.2

/-- The seconds contributed by one token. -/
def tokenValue (t : List Char × TimeUnit) : ℚ :=
  (natOfDigits t.1 : ℚ) * unitFactorQ t.2

theorem listToLower_digits (dl : List Char) (h : dl.all Char.isDigit = true) :
    listToLower dl = dl := by
  rw [listToLower]
  rw [List.map_congr_left (fun c hc => toLower_of_isDigit c (by
    rw [List.all_eq_true] at h
    exact h c hc))]
  exact List.map_id dl

theorem searchNumUnit_token (dl : List Char) (c : Char) (cs : List Char)
    (h1 : dl ≠ []) (h2 : dl.all Char.isDigit = true) (hc : c.isDigit = false)
    (hca : isAsciiAlpha c = true) :
    searchNumUnitGo none (dl ++ c :: cs) = some (dl, c :: cs.takeWhile isAsciiAlpha) := by
  rcases dl with _ | ⟨d, rest⟩
  · exact absurd rfl h1
  · simp only [List.all_cons, Bool.and_eq_true] at h2
    rw [List.cons_append, searchNumUnitGo]
    simp only [h2.1, if_pos]
    rw [show ((none : Option (List Char)).getD [] ++ [d]) = [d] from rfl]
    rw [searchNumUnitGo_digits rest [d] c cs h2.2 hc hca]
    simp

theorem parseTimePart_render (dl : List Char) (u : TimeUnit) (h1 : dl ≠ [])
    (h2 : dl.all Char.isDigit = true) :
    parseTimePart (renderToken (dl, u)) = .ok (tokenValue (dl, u)) := by
  have hlowu : listToLower (unitChars u) = unitChars u := by cases u <;> decide
  have hlow : listToLower (renderToken (dl, u)) = dl ++ unitChars u := by
    rw [renderToken, listToLower, List.map_append]
    rw [← listToLower, ← listToLower, listToLower_digits dl h2, hlowu]
  cases u <;>
    · rw [parseTimePart, hlow]
      simp only [unitChars]
      rw [searchNumUnit_token dl _ _ h1 h2 (by decide) (by decide)]
      simp [unitFactor, unitFactorQ, tokenValue, unitChars, List.takeWhile,
        show isAsciiAlpha 's' = true from by decide]

theorem isBlankChars_render_eq_false (dl : List Char) (u : TimeUnit) (h1 : dl ≠ [])
    (h2 : dl.all Char.isDigit = true) :
    isBlankChars (renderToken (dl, u)) = false := by
  rcases dl with _ | ⟨d, rest⟩
  · exact absurd rfl h1
  · simp only [List.all_cons, Bool.and_eq_true] at h2
    simp [isBlankChars, renderToken]
    intro hw
    rw [isWhitespace_eq_false_of_isDigit d h2.1] at hw
    cases hw

theorem sumTimeParts_renders (toks : List (List Char × TimeUnit))
    (h : ∀ t ∈ toks, t.1 ≠ [] ∧ t.1.all Char.isDigit = true) :
    sumTimeParts (toks.map renderToken) = .ok ((toks.map tokenValue).sum) := by
  induction toks with
  | nil => simp [sumTimeParts]
  | cons t rest ih =>
    obtain ⟨ht1, ht2⟩ := h t (List.mem_cons_self t rest)
    have hrest := fun t' ht' => h t' (List.mem_cons_of_mem t ht')
    rw [List.map_cons, sumTimeParts]
    rw [if_neg (by
      rw [show t = (t.1, t.2) from rfl] at *
      rw [isBlankChars_render_eq_false t.1 t.2 ht1 ht2]
      simp)]
    rw [show t = (t.1, t.2) from rfl, parseTimePart_render t.1 t.2 ht1 ht2]
    rw [ih hrest]
    rfl

theorem parseTimePart_cons_minus (p : List Char) :
    parseTimePart ('-' :: p) = parseTimePart p := by
  rw [parseTimePart, parseTimePart]
  rw [show listToLower ('-' :: p) = '-' :: listToLower p from rfl]
  rw [searchNumUnitGo_cons_skip '-' _ (by decide)]

theorem colon_not_mem_unitChars (u : TimeUnit) : ':' ∉ unitChars u := by
  cases u <;> decide

theorem exists_unit_letter (u : TimeUnit) :
    ∃ c, c ∈ unitChars u ∧ c.isDigit = false ∧ c ≠ '.' := by
  cases u
  · exact ⟨'m', by decide, by decide, by decide⟩
  · exact ⟨'s', by decide, by decide, by decide⟩
  · exact ⟨'m', by decide, by decide, by decide⟩
  · exact ⟨'h', by decide, by decide, by decide⟩
  · exact ⟨'d', by decide, by decide, by decide⟩

theorem colon_not_mem_renderToken (t : List Char × TimeUnit)
    (h2 : t.1.all Char.isDigit = true) : ':' ∉ renderToken t := by
  rw [renderToken]
  intro hm
  rcases List.mem_append.mp hm with hm | hm
  · rw [List.all_eq_true] at h2
    exact absurd rfl (ne_colon_of_isDigit ':' (h2 ':' hm))
  · exact colon_not_mem_unitChars t.2 hm

/-- The joined token string decomposes as its first token followed by a
suffix. -/
theorem joinChar_tokens_decomp (sep : Char) (p : List Char) (ps : List (List Char)) :
    ∃ suf, joinChar sep (p :: ps) = p ++ suf := by
  rcases ps with _ | ⟨q, rest⟩
  · exact ⟨[], by simp [joinChar]⟩
  · exact ⟨sep :: joinChar sep (q :: rest), rfl⟩

theorem toList_asString (l : List Char) : l.asString.toList = l := rfl

theorem except_bind_ok {α β ε : Type} (a : α) (f : α → Except ε β) :
    (Except.ok a >>= f) = f a := rfl

theorem except_pure_eq {α ε : Type} (a : α) : (pure a : Except ε α) = Except.ok a := rfl

/-- Shape facts about a joined `<number><unit>` token string: it is not an
integer string, not a float string, it starts with the first token's first
digit, and splitting on `:` recovers the tokens. -/
theorem tokenJoin_shape (t : List Char × TimeUnit) (toks : List (List Char × TimeUnit))
    (h : ∀ t' ∈ t :: toks, t'.1 ≠ [] ∧ t'.1.all Char.isDigit = true) :
    listIsDigit (joinChar ':' ((t :: toks).map renderToken)) = false
    ∧ listIsDigit (removeFirstDot (joinChar ':' ((t :: toks).map renderToken))) = false
    ∧ (joinChar ':' ((t :: toks).map renderToken)).headD ' ' = t.1.headD ' '
    ∧ splitOnChar ':' (joinChar ':' ((t :: toks).map renderToken)) =
        (t :: toks).map renderToken := by
  obtain ⟨ht1, ht2⟩ := h t (List.mem_cons_self t toks)
  rw [List.map_cons]
  obtain ⟨suf, hsuf⟩ := joinChar_tokens_decomp ':' (renderToken t) (toks.map renderToken)
  obtain ⟨c0, hc0m, hc0d, hc0dot⟩ := exists_unit_letter t.2
  have hc0j : c0 ∈ joinChar ':' (renderToken t :: toks.map renderToken) := by
    rw [hsuf]
    refine List.mem_append_left _ ?_
    rw [renderToken]
    exact List.mem_append_right _ hc0m
  refine ⟨listIsDigit_eq_false_of_mem _ _ hc0j hc0d, ?_, ?_, ?_⟩
  · exact listIsDigit_eq_false_of_mem _ _ (mem_removeFirstDot _ _ hc0dot hc0j) hc0d
  · rcases hd1 : t.1 with _ | ⟨d, r⟩
    · exact absurd hd1 ht1
    · rw [hsuf, renderToken, hd1]
      simp
  · refine splitOnChar_joinChar ':' _ (by simp) ?_
    intro p hp
    rcases List.mem_cons.mp hp with hp | hp
    · exact hp ▸ colon_not_mem_renderToken t ht2
    · obtain ⟨t', ht', rfl⟩ := List.mem_map.mp hp
      exact colon_not_mem_renderToken t' (h t' (List.mem_cons_of_mem t ht')).2

/-- Integer strings: `[-]digits` is returned as that integer. -/
theorem timeToSeconds_int_strings (dl : List Char) (h1 : dl ≠ [])
    (h2 : dl.all Char.isDigit = true) :
    timeToSeconds dl.asString = .ok ((natOfDigits dl : ℚ))
      ∧ timeToSeconds ('-' :: dl).asString = .ok (-(natOfDigits dl : ℚ)) := by
  rcases dl with _ | ⟨d, rest⟩
  · exact absurd rfl h1
  · have hd : d.isDigit = true := by
      simp only [List.all_cons, Bool.and_eq_true] at h2
      exact h2.1
    have hdm : ((d :: rest).headD ' ') ≠ '-' := by
      simpa using ne_minus_of_isDigit d hd
    have hdig : listIsDigit (d :: rest) = true := by simp [listIsDigit, h2]
    constructor
    · simp only [timeToSeconds, toList_asString]
      rw [stripMinus_of_head _ hdm, hdig]
      simp only [if_true]
      rw [pyIntOfChars_of_head _ hdm]
      simp
    · simp only [timeToSeconds, toList_asString]
      rw [show stripMinus ('-' :: d :: rest) = d :: rest from rfl, hdig]
      simp only [if_true]
      rw [show pyIntOfChars ('-' :: d :: rest) = -(natOfDigits (d :: rest) : Int) from rfl]
      simp

/-- Float strings: `digits.digits` is returned as that rational. -/
theorem timeToSeconds_float_strings (ip fp : List Char)
    (hdig : (ip ++ fp).all Char.isDigit = true) (hne : ip ++ fp ≠ []) :
    timeToSeconds (ip ++ '.' :: fp).asString =
      .ok ((natOfDigits ip : ℚ) + (natOfDigits fp : ℚ) / (10 : ℚ) ^ fp.length) := by
  have hdot : '.' ∉ ip := by
    intro hm
    rw [List.all_eq_true] at hdig
    exact absurd rfl (ne_dot_of_isDigit '.' (hdig '.' (List.mem_append_left fp hm)))
  have hmemdot : '.' ∈ ip ++ '.' :: fp :=
    List.mem_append_right ip (List.mem_cons_self _ _)
  have hchk1 : listIsDigit (ip ++ '.' :: fp) = false :=
    listIsDigit_eq_false_of_mem _ _ hmemdot (by decide)
  have hhead : (ip ++ '.' :: fp).headD ' ' ≠ '-' := by
    rcases ip with _ | ⟨c, r⟩
    · simp
    · have hc : c.isDigit = true := by
        rw [List.all_eq_true] at hdig
        exact hdig c (List.mem_append_left fp (List.mem_cons_self c r))
      simpa using ne_minus_of_isDigit c hc
  simp only [timeToSeconds, toList_asString]
  rw [stripMinus_of_head _ hhead, hchk1]
  simp only [Bool.false_eq_true, if_false]
  rw [removeFirstDot_append ip fp hdot]
  have hchk2 : listIsDigit (ip ++ fp) = true := by simp [listIsDigit, hdig, hne]
  rw [hchk2]
  simp only [if_true]
  rw [pyFloatOfChars_of_head _ hhead, pyFloatCore, splitAtDot_append ip fp hdot]

/-- Token strings: a `:`-joined sequence of `<digits><unit>` tokens sums the
per-token contributions; a leading `-` negates the total. -/
theorem timeToSeconds_token_strings (t : List Char × TimeUnit)
    (toks : List (List Char × TimeUnit))
    (h : ∀ t' ∈ t :: toks, t'.1 ≠ [] ∧ t'.1.all Char.isDigit = true) :
    timeToSeconds (joinChar ':' ((t :: toks).map renderToken)).asString =
        .ok (((t :: toks).map tokenValue).sum)
      ∧ timeToSeconds ('-' :: joinChar ':' ((t :: toks).map renderToken)).asString =
        .ok (-((t :: toks).map tokenValue).sum) := by
  obtain ⟨hchk1, hchk2, hhead, hsplit⟩ := tokenJoin_shape t toks h
  obtain ⟨ht1, ht2⟩ := h t (List.mem_cons_self t toks)
  have hheadd : (joinChar ':' ((t :: toks).map renderToken)).headD ' ' ≠ '-' := by
    rw [hhead]
    rcases hd1 : t.1 with _ | ⟨d, r⟩
    · exact absurd hd1 ht1
    · have hd : d.isDigit = true := by
        rw [hd1] at ht2
        simp only [List.all_cons, Bool.and_eq_true] at ht2
        exact ht2.1
      simpa using ne_minus_of_isDigit d hd
  have hsum := sumTimeParts_renders (t :: toks) (fun t' ht' => h t' ht')
  constructor
  · simp only [timeToSeconds, toList_asString]
    rw [stripMinus_of_head _ hheadd, hchk1]
    simp only [Bool.false_eq_true, if_false]
    rw [hchk2]
    simp only [Bool.false_eq_true, if_false]
    rw [hsplit, hsum, except_bind_ok]
    rw [if_neg hheadd, except_pure_eq]
  · simp only [timeToSeconds, toList_asString]
    rw [show stripMinus ('-' :: joinChar ':' ((t :: toks).map renderToken)) =
      joinChar ':' ((t :: toks).map renderToken) from rfl]
    rw [hchk1]
    simp only [Bool.false_eq_true, if_false]
    rw [hchk2]
    simp only [Bool.false_eq_true, if_false]
    rw [splitOnChar_cons_ne ':' '-' _ (by decide), hsplit]
    rw [List.map_cons]
    simp only [List.headD_cons, List.tail_cons]
    rw [sumTimeParts]
    rw [if_neg (by
      simp [isBlankChars, show Char.isWhitespace '-' = false from by decide])]
    rw [parseTimePart_cons_minus, parseTimePart_render t.1 t.2 ht1 ht2]
    rw [sumTimeParts_renders toks (fun t' ht' => h t' (List.mem_cons_of_mem t ht'))]
    simp only [except_bind_ok, except_pure_eq]
    simp [tokenValue]

theorem timeToSeconds_example1 : timeToSeconds "1h:30m:15s" = .ok 5415 := by
  have h := (timeToSeconds_token_strings (['1'], TimeUnit.h)
    [(['3', '0'], TimeUnit.m), (['1', '5'], TimeUnit.s)] (by decide)).1
  rw [show (joinChar ':'
    (([((['1'] : List Char), TimeUnit.h), (['3', '0'], TimeUnit.m),
      (['1', '5'], TimeUnit.s)]).map renderToken)).asString = "1h:30m:15s" from rfl] at h
  rw [h]
  norm_num [tokenValue, unitFactorQ, show natOfDigits ['1'] = 1 from by decide,
    show natOfDigits ['3', '0'] = 30 from by decide,
    show natOfDigits ['1', '5'] = 15 from by decide]

theorem timeToSeconds_example2 : timeToSeconds "-5" = .ok (-5) := by rfl

theorem timeToSeconds_example3 : timeToSeconds "2.5" = .ok (5 / 2) := by
  have h := timeToSeconds_float_strings ['2'] ['5'] (by decide) (by decide)
  rw [show ((['2'] : List Char) ++ '.' :: ['5']).asString = "2.5" from rfl] at h
  rw [h]
  norm_num [show natOfDigits ['2'] = 2 from by decide,
    show natOfDigits ['5'] = 5 from by decide]

/-- C8.  Duration parsing: an integer or float string is returned as that
number; otherwise the string is split on `:` into `<number><unit>` tokens
with units `ms,s,m,h,d` and factors `0.001,1,60,3600,86400`, which are
summed, and a leading `-` negates the total.  `"1h:30m:15s"` parses to 5415,
`"-5"` to -5, `"2.5"` to 2.5. -/
theorem timeToSeconds_spec :
    (∀ dl : List Char, dl ≠ [] → dl.all Char.isDigit = true →
      timeToSeconds dl.asString = .ok ((natOfDigits dl : ℚ))
        ∧ timeToSeconds ('-' :: dl).asString = .ok (-(natOfDigits dl : ℚ)))
    ∧ (∀ ip fp : List Char, (ip ++ fp).all Char.isDigit = true → ip ++ fp ≠ [] →
      timeToSeconds (ip ++ '.' :: fp).asString =
        .ok ((natOfDigits ip : ℚ) + (natOfDigits fp : ℚ) / (10 : ℚ) ^ fp.length))
    ∧ (∀ (t : List Char × TimeUnit) (toks : List (List Char × TimeUnit)),
      (∀ t' ∈ t :: toks, t'.1 ≠ [] ∧ t'.1.all Char.isDigit = true) →
      timeToSeconds (joinChar ':' ((t :: toks).map renderToken)).asString =
          .ok (((t :: toks).map tokenValue).sum)
        ∧ timeToSeconds ('-' :: joinChar ':' ((t :: toks).map renderToken)).asString =
          .ok (-((t :: toks).map tokenValue).sum))
    ∧ timeToSeconds "1h:30m:15s" = .ok 5415
    ∧ timeToSeconds "-5" = .ok (-5)
    ∧ timeToSeconds "2.5" = .ok (5 / 2) :=
  ⟨timeToSeconds_int_strings, timeToSeconds_float_strings, timeToSeconds_token_strings,
    timeToSeconds_example1, timeToSeconds_example2, timeToSeconds_example3⟩

/-- Witness for C8: the hypotheses of each universally quantified part are
satisfiable; instantiates the integer part at `"42"`, the float part at
`"3.25"` and the token part at `"7d"`. -/
theorem timeToSeconds_spec_witness :
    timeToSeconds (['4', '2'].asString) = .ok ((42 : ℚ))
      ∧ timeToSeconds ((['3'] ++ '.' :: ['2', '5']).asString) = .ok ((13 : ℚ) / 4)
      ∧ timeToSeconds (joinChar ':' ([((['7'] : List Char), TimeUnit.d)].map renderToken)).asString =
          .ok (([((['7'] : List Char), TimeUnit.d)].map tokenValue).sum) := by
  refine ⟨?_, ?_, ?_⟩
  · have h := (timeToSeconds_spec.1 ['4', '2'] (by decide) (by decide)).1
    rw [h, show natOfDigits ['4', '2'] = 42 from by decide]
    norm_num
  · have h := timeToSeconds_spec.2.1 ['3'] ['2', '5'] (by decide) (by decide)
    rw [h, show natOfDigits ['3'] = 3 from by decide,
      show natOfDigits ['2', '5'] = 25 from by decide]
    norm_num
  · exact (timeToSeconds_spec.2.2.1 (['7'], TimeUnit.d) []
      (by intro t' ht'; simp at ht'; simp [ht'])).1

/-! ## Python `os.path.expandvars` / `os.path.expanduser` (posixpath)

The environment is a function `String → Option String` (`os.environ`
lookup).  `expandvars` substitutes `$NAME` and `${NAME}` in one left-to-right
pass; substituted values are spliced in without re-scanning (the scan resumes
after the inserted value, as `i = i + len(value)` does), which is why
`EnvironmentVar` re-applies the pass recursively. -/

/-- `\w` with `re.ASCII`: `[a-zA-Z0-9_]`. -/
def isWordChar (c : Char) : Bool :=
  c.isAlpha || c.isDigit || c = '_'

/-- Split a character list at its first `}`. -/
def findCloseBrace : List Char → Option (List Char × List Char)
  | [] => none
  | c :: rest =>
    if c = '}' then some ([], rest)
    else (findCloseBrace rest).map (fun p => (c :: p.1, p.2))

/-- One pass of `posixpath.expandvars`, with fuel (any fuel that is at least
the input length gives the fixpoint of the scan; every step consumes at
least one character).  An unset variable is left verbatim and the scan
continues after it; `${` without a closing `}` leaves the `$` verbatim. -/
def expandVarsGo (env : String → Option String) : Nat → List Char → List Char
  | 0, l => l
  | _ + 1, [] => []
  | fuel + 1, c :: rest =>
    if c = '$' then
      if rest.headD ' ' = '{' then
        match findCloseBrace rest.tail with
        | some (name, after) =>
          match env name.asString with
          | some v => v.toList ++ expandVarsGo env fuel after
          | none => '$' :: '{' :: (name ++ '}' :: expandVarsGo env fuel after)
        | none => '$' :: expandVarsGo env fuel rest
      else
        if (rest.takeWhile isWordChar).isEmpty then '$' :: expandVarsGo env fuel rest
        else
          match env (rest.takeWhile isWordChar).asString with
          | some v => v.toList ++ expandVarsGo env fuel (rest.dropWhile isWordChar)
          | none =>
            '$' :: (rest.takeWhile isWordChar ++ expandVarsGo env fuel (rest.dropWhile isWordChar))
    else c :: expandVarsGo env fuel rest

/-- `posixpath.expandvars`. -/
def expandVars (env : String → Option String) (l : List Char) : List Char :=
  expandVarsGo env (l.length + 1) l

/-- `posixpath.expanduser`.  A bare `~` resolves through the `HOME`
environment entry (trailing slashes stripped, an empty result becomes `/`);
`~user` requires the pwd user database, which the model does not carry, so it
is returned unchanged (as CPython does for an unknown user); likewise a
missing `HOME` falls back to the pwd database and is modelled as identity. -/
def expandUser (env : String → Option String) (l : List Char) : List Char :=
  if l.headD ' ' = '~' then
    if (l.tail.takeWhile (fun c => c ≠ '/')).isEmpty then
      match env "HOME" with
      | some home =>
        if ((home.toList.reverse.dropWhile (fun c => c = '/')).reverse ++
            l.tail.dropWhile (fun c => c ≠ '/')).isEmpty then ['/']
        else (home.toList.reverse.dropWhile (fun c => c = '/')).reverse ++
          l.tail.dropWhile (fun c => c ≠ '/')
      | none => l
    else l
  else l

/-! ## `EnvironmentVar` (validators.py lines 105-132) -/

/-- A Python value reaching `EnvironmentVar.__call__`: the source first
coerces it with `str(value)`. -/
inductive PyVal
  | str (s : String)
  | int (n : Int)
deriving DecidableEq, Repr

/-- `str(value)`. -/
def pyStr : PyVal → String
  | .str s => s
  | .int n => toString n

/-- One expansion pass of `EnvironmentVar.__call__`:
`os.path.expanduser(os.path.expandvars(str(value)))` (on a string argument
`str` is the identity). -/
def expandOncePy (env : String → Option String) (s : String) : String :=
  (expandUser env (expandVars env s.toList)).asString

/-- `EnvironmentVar.__call__` with `return_type=str`, driven by the remaining
depth.  The source checks `max_depth < 0` before expanding, so with a
non-negative starting depth the raise happens exactly when the pass at depth
0 still changes the value. -/
def envCallFuel (env : String → Option String) : Nat → String → Except String String
  | d, v =>
    if expandOncePy env v = v then .ok v
    else
      match d with
      | 0 => .error "Max depth reached while expanding environment variables."
      | d' + 1 => envCallFuel env d' (expandOncePy env v)

/-- `EnvironmentVar.__call__` with an arbitrary `return_type` coercion
`self.schema`, applied to the final string once no further substitution
occurs. -/
def envCallFuelCoe {α : Type} (env : String → Option String) (coerce : String → α) :
    Nat → String → Except String α
  | d, v =>
    if expandOncePy env v = v then .ok (coerce v)
    else
      match d with
      | 0 => .error "Max depth reached while expanding environment variables."
      | d' + 1 => envCallFuelCoe env coerce d' (expandOncePy env v)

/-- `EnvironmentVar()(value)` with the default `max_depth=16` and
`return_type=str`, on an arbitrary Python value. -/
def envVarCall (env : String → Option String) (v : PyVal) : Except String String :=
  envCallFuel env 16 (pyStr v)

/-- Environment of the C7 example: `A="${B}"`, `B="x"`. -/
def abEnv : String → Option String := fun s => [("A", "${B}"), ("B", "x")].lookup s

/-- A substitution chain of length `n+1`: `Aa…a` with `i` copies of `a` maps
to `${Aa…a}` with `i+1` copies while `i < n`, and the last link maps to
`"end"`. -/
def chainEnvList (n : Nat) : List (String × String) :=
  (List.range (n + 1)).map (fun i =>
    (('A' :: List.replicate i 'a').asString,
     if i < n then ('$' :: '{' :: 'A' :: (List.replicate (i + 1) 'a' ++ ['}'])).asString
     else "end"))

/-- Lookup into the chain environment. -/
def chainEnv (n : Nat) (s : String) : Option String := (chainEnvList n).lookup s

/-- Environment with only `HOME` set, for the `~` expansion example. -/
def homeEnv : String → Option String := fun s => [("HOME", "/home/u/")].lookup s

/-! ### Properties of the expansion pass -/

theorem takeWhile_all_eq_self (p : Char → Bool) :
    ∀ l : List Char, l.all p = true → l.takeWhile p = l := by
  intro l h
  induction l with
  | nil => rfl
  | cons c rest ih =>
    simp only [List.all_cons, Bool.and_eq_true] at h
    rw [List.takeWhile_cons, if_pos h.1, ih h.2]

theorem dropWhile_all_eq_nil (p : Char → Bool) :
    ∀ l : List Char, l.all p = true → l.dropWhile p = [] := by
  intro l h
  induction l with
  | nil => rfl
  | cons c rest ih =>
    simp only [List.all_cons, Bool.and_eq_true] at h
    rw [List.dropWhile_cons, if_pos h.1, ih h.2]

/-- A string without `$` passes through `expandVarsGo` unchanged, for any
fuel. -/
theorem expandVarsGo_no_dollar (env : String → Option String) :
    ∀ (fuel : Nat) (l : List Char), '$' ∉ l → expandVarsGo env fuel l = l := by
  intro fuel
  induction fuel with
  | zero => intro l _; rfl
  | succ fuel ih =>
    intro l h
    rcases l with _ | ⟨c, rest⟩
    · rfl
    · have hc : c ≠ '$' := fun hh => h (hh ▸ List.mem_cons_self c rest)
      rw [expandVarsGo, if_neg hc, ih rest (fun hm => h (List.mem_cons_of_mem c hm))]

theorem expandUser_no_tilde (env : String → Option String) (l : List Char)
    (h : l.headD ' ' ≠ '~') : expandUser env l = l := by
  rw [expandUser, if_neg h]

/-- On a `$`-free, `~`-free string the pass is the identity. -/
theorem expandOncePy_fixpoint (env : String → Option String) (s : String)
    (h1 : '$' ∉ s.toList) (h2 : s.toList.headD ' ' ≠ '~') :
    expandOncePy env s = s := by
  rw [expandOncePy, expandVars, expandVarsGo_no_dollar env _ _ h1,
    expandUser_no_tilde env _ h2]
  rfl

/-! ### The recursion of `EnvironmentVar.__call__` -/

theorem envCallFuelCoe_eq_map {α : Type} (env : String → Option String)
    (coerce : String → α) : ∀ (d : Nat) (v : String),
    envCallFuelCoe env coerce d v = (envCallFuel env d v).map coerce := by
  intro d
  induction d with
  | zero =>
    intro v
    rw [envCallFuelCoe, envCallFuel]
    split <;> rfl
  | succ d ih =>
    intro v
    rw [envCallFuelCoe, envCallFuel]
    split
    · rfl
    · exact ih _

/-- A successful call returns a fixpoint of the pass, reached within `d`
re-scans. -/
theorem envCallFuel_ok_iterate (env : String → Option String) : ∀ (d : Nat) (v w : String),
    envCallFuel env d v = .ok w →
    expandOncePy env w = w ∧ ∃ k, k ≤ d ∧ w = (expandOncePy env)^[k] v := by
  intro d
  induction d with
  | zero =>
    intro v w h
    rw [envCallFuel] at h
    split at h
    · cases h
      exact ⟨by assumption, 0, Nat.le_refl 0, rfl⟩
    · cases h
  | succ d ih =>
    intro v w h
    rw [envCallFuel] at h
    split at h
    · cases h
      exact ⟨by assumption, 0, Nat.zero_le _, rfl⟩
    · obtain ⟨hfix, k, hk, hw⟩ := ih _ _ h
      refine ⟨hfix, k + 1, Nat.succ_le_succ hk, ?_⟩
      rw [hw, Function.iterate_succ_apply]

/-- If the pass keeps changing the value for `d+1` consecutive re-scans, the
call raises the max-depth error. -/
theorem envCallFuel_error_of_diverging (env : String → Option String) :
    ∀ (d : Nat) (v : String),
    (∀ k, k ≤ d → (expandOncePy env)^[k + 1] v ≠ (expandOncePy env)^[k] v) →
    envCallFuel env d v = .error "Max depth reached while expanding environment variables." := by
  intro d
  induction d with
  | zero =>
    intro v h
    rw [envCallFuel]
    rw [if_neg (by simpa using h 0 (Nat.le_refl 0))]
  | succ d ih =>
    intro v h
    rw [envCallFuel]
    rw [if_neg (by simpa using h 0 (Nat.zero_le _))]
    refine ih _ (fun k hk => ?_)
    have := h (k + 1) (Nat.succ_le_succ hk)
    rw [Function.iterate_succ_apply, Function.iterate_succ_apply] at this
    exact this

/-- C7.  Environment-variable expansion: the coercion to the requested leaf
type is applied exactly once, after the recursion settles; a successful call
returns a fixpoint of the expansion pass reached within 16 re-scans; a value
that keeps changing for 17 consecutive passes raises the max-depth
`ValueInvalid`; `${A}` with `A="${B}"`, `B="x"` resolves to `"x"`; a
16-substitution chain still succeeds while a 17-substitution chain raises. -/
theorem environmentVar_spec :
    (∀ (α : Type) (env : String → Option String) (coerce : String → α) (v : String),
      envCallFuelCoe env coerce 16 v = (envCallFuel env 16 v).map coerce)
    ∧ (∀ (env : String → Option String) (v w : String), envCallFuel env 16 v = .ok w →
      expandOncePy env w = w ∧ ∃ k, k ≤ 16 ∧ w = (expandOncePy env)^[k] v)
    ∧ (∀ (env : String → Option String) (v : String),
      (∀ k, k ≤ 16 → (expandOncePy env)^[k + 1] v ≠ (expandOncePy env)^[k] v) →
      envCallFuel env 16 v = .error "Max depth reached while expanding environment variables.")
    ∧ envCallFuel abEnv 16 "${A}" = .ok "x"
    ∧ envCallFuel (chainEnv 15) 16 "${A}" = .ok "end"
    ∧ envCallFuel (chainEnv 16) 16 "${A}" =
        .error "Max depth reached while expanding environment variables." :=
  ⟨fun _ env c v => envCallFuelCoe_eq_map env c 16 v,
    fun env v w => envCallFuel_ok_iterate env 16 v w,
    fun env v => envCallFuel_error_of_diverging env 16 v, by rfl, by rfl, by rfl⟩

/-- Witness for C7: the fixpoint characterization applied to the concrete
`${A}`/`${B}`/`x` resolution, and the divergence hypothesis discharged on the
17-link chain. -/
theorem environmentVar_spec_witness :
    (expandOncePy abEnv "x" = "x" ∧ ∃ k, k ≤ 16 ∧ "x" = (expandOncePy abEnv)^[k] "${A}")
    ∧ envCallFuel (chainEnv 16) 16 "${A}" =
        .error "Max depth reached while expanding environment variables." := by
  constructor
  · exact environmentVar_spec.2.1 abEnv "${A}" "x" environmentVar_spec.2.2.2.1
  · exact environmentVar_spec.2.2.1 (chainEnv 16) "${A}" (by decide)

/-- Under-braced `$NAME` expansion: a nonempty word-character name whose
environment value contains no `$` and does not start with `~` resolves to
that value. -/
theorem envVar_unbraced (env : String → Option String) (nl : List Char) (value : String)
    (h1 : nl ≠ []) (h2 : nl.all isWordChar = true)
    (henv : env nl.asString = some value) (hv1 : '$' ∉ value.toList)
    (hv2 : value.toList.headD ' ' ≠ '~') :
    envCallFuel env 16 ('$' :: nl).asString = .ok value := by
  have hpass : expandOncePy env ('$' :: nl).asString = value := by
    rw [expandOncePy]
    rw [show (('$' :: nl).asString).toList = '$' :: nl from rfl]
    rw [expandVars]
    rw [show ('$' :: nl).length + 1 = (nl.length + 1) + 1 from by simp]
    rw [expandVarsGo, if_pos rfl]
    rcases nl with _ | ⟨c, nl'⟩
    · exact absurd rfl h1
    · have hcw : isWordChar c = true := by
        simp only [List.all_cons, Bool.and_eq_true] at h2
        exact h2.1
      have hcne : c ≠ '{' := by
        intro hh
        rw [hh] at hcw
        cases hcw
      rw [if_neg (by simpa using hcne)]
      rw [takeWhile_all_eq_self isWordChar _ h2]
      rw [if_neg (by simp)]
      rw [henv]
      rw [dropWhile_all_eq_nil isWordChar _ h2]
      show (expandUser env (value.toList ++ expandVarsGo env ((c :: nl').length + 1) [])).asString
        = value
      rw [show expandVarsGo env ((c :: nl').length + 1) [] = [] from rfl]
      rw [List.append_nil]
      rw [expandUser_no_tilde env _ hv2]
      rfl
  have hne : value ≠ ('$' :: nl).asString := by
    intro heq
    have h' := congrArg String.toList heq
    rw [show (('$' :: nl).asString).toList = '$' :: nl from rfl] at h'
    exact hv1 (h' ▸ List.mem_cons_self '$' nl)
  rw [envCallFuel, hpass, if_neg hne]
  show envCallFuel env 15 value = .ok value
  rw [envCallFuel, if_pos (expandOncePy_fixpoint env value hv1 hv2)]

/-- C9.  The expander substitutes more than the documented `${NAME}` form:
un-braced `$NAME` is expanded (for any environment, any word-character name),
a leading `~` is resolved through `HOME`, and a non-string input is first
coerced with `str` before expansion. -/
theorem environmentVar_implicit_spec :
    (∀ (env : String → Option String) (nl : List Char) (value : String),
      nl ≠ [] → nl.all isWordChar = true → env nl.asString = some value →
      '$' ∉ value.toList → value.toList.headD ' ' ≠ '~' →
      envCallFuel env 16 ('$' :: nl).asString = .ok value)
    ∧ envCallFuel homeEnv 16 "~/f" = .ok "/home/u/f"
    ∧ envVarCall (fun _ => none) (.int 5) = .ok "5" :=
  ⟨envVar_unbraced, by rfl, by rfl⟩

/-- Witness for C9: the un-braced `$B` resolves to `"x"` under `abEnv`. -/
theorem environmentVar_implicit_spec_witness :
    envCallFuel abEnv 16 ('$' :: ['B']).asString = .ok "x" :=
  environmentVar_implicit_spec.1 abEnv ['B'] "x" (by decide) (by decide) (by rfl)
    (by decide) (by decide)

/-! ## Template merge (`StreamletFlow.load_extensions`, flow.py lines 173-222)

The inner `extend(base, extension)` function is a deep overlay over YAML
values.  YAML scalars/sequences/mappings are modelled by `YVal` (mapping keys
are strings, as configuration keys are).  Python exceptions raised on
mismatched shapes (`AttributeError`/`TypeError` from `.get`/`.append` on
non-container values) are `.error .attrError`.  The recursion is driven by
explicit fuel so that it stays executable; `.error .fuelOut` is the fuel
artifact, never reached when the fuel exceeds the nesting depth. -/

/-- A YAML value. -/
inductive YVal
  | ystr (s : String)
  | yint (n : Int)
  | ybool (b : Bool)
  | ynull
  | ylist (items : List YVal)
  | ymap (kvs : List (String × YVal))
deriving Repr

mutual

/-- Structural equality, Python `==` on the modelled YAML values. -/
def yvalBeq : YVal → YVal → Bool
  | .ystr a, .ystr b => a == b
  | .yint a, .yint b => a == b
  | .ybool a, .ybool b => a == b
  | .ynull, .ynull => true
  | .ylist as, .ylist bs => yvalListBeq as bs
  | .ymap as, .ymap bs => yvalMapBeq as bs
  | _, _ => false

/-- Elementwise equality of YAML sequences. -/
def yvalListBeq : List YVal → List YVal → Bool
  | [], [] => true
  | a :: as, b :: bs => yvalBeq a b && yvalListBeq as bs
  | _, _ => false

/-- Pairwise equality of YAML mappings (ordered, as Python dict `==` is not —
configuration mappings compared here are name fields, i.e. scalars). -/
def yvalMapBeq : List (String × YVal) → List (String × YVal) → Bool
  | [], [] => true
  | (k1, v1) :: as, (k2, v2) :: bs => k1 == k2 && yvalBeq v1 v2 && yvalMapBeq as bs
  | _, _ => false

end

instance : BEq YVal := ⟨yvalBeq⟩

/-- Python `dict.get(k)` on a mapping with unique keys. -/
def yGet (kvs : List (String × YVal)) (k : String) : Option YVal :=
  kvs.lookup k

/-- Python `dict.__setitem__`: overwrite in place if the key exists (keeping
its position), else append. -/
def ySet (kvs : List (String × YVal)) (k : String) (v : YVal) : List (String × YVal) :=
  if kvs.any (fun p => p.1 == k) then kvs.map (fun p => if p.1 == k then (k, v) else p)
  else kvs ++ [(k, v)]

/-- Python truthiness of a YAML value. -/
def pyTruthy : YVal → Bool
  | .ystr s => !s.isEmpty
  | .yint n => n != 0
  | .ybool b => b
  | .ynull => false
  | .ylist items => !items.isEmpty
  | .ymap kvs => !kvs.isEmpty

/-- Merge failure: `attrError` models the Python `AttributeError`/`TypeError`
raised when a container operation hits a value of the wrong shape;
`fuelOut` is the fuel artifact of the embedding. -/
inductive MergeErr
  | attrError
  | fuelOut
deriving Repr, DecidableEq

/-- Does the base item `b` match the extension name?  Transcribes
`name == b.get("name")`; a base item that is not a mapping raises
(`b.get` on a non-dict). -/
def scanIdx (name : YVal) : List YVal → Except MergeErr (Option Nat)
  | [] => .ok none
  | .ymap bkvs :: rest =>
    if (match yGet bkvs "name" with | some v => v == name | none => false) then .ok (some 0)
    else (scanIdx name rest).map (fun o => o.map (· + 1))
  | _ :: _ => .error .attrError

mutual

/-- `extend(base, extension)` from `load_extensions`: sequences merge by
`name`, mappings merge key-by-key recursively, any other extension value
replaces the base. -/
def extendF : Nat → YVal → YVal → Except MergeErr YVal
  | 0, _, _ => .error .fuelOut
  | fuel + 1, base, ext =>
    match ext with
    | .ylist items =>
      match items with
      | [] => .ok base
      | _ =>
        match base with
        | .ylist bs => (extendList fuel bs items).map .ylist
        | _ => .error .attrError
    | .ymap kvs =>
      match kvs with
      | [] => .ok base
      | _ =>
        match base with
        | .ymap bkvs => (extendMap fuel bkvs kvs).map .ymap
        | _ => .error .attrError
    | other => .ok other

/-- The `for item in extension` loop of the sequence branch. -/
def extendList : Nat → List YVal → List YVal → Except MergeErr (List YVal)
  | 0, _, _ => .error .fuelOut
  | _ + 1, bs, [] => .ok bs
  | fuel + 1, bs, item :: rest => do
    let bs' ← extendItem fuel bs item
    extendList fuel bs' rest

/-- One iteration of the sequence branch: an extension item that is a mapping
with a truthy `name` is merged into the first base item with the same name
(replaced in place), otherwise the item is appended. -/
def extendItem : Nat → List YVal → YVal → Except MergeErr (List YVal)
  | 0, _, _ => .error .fuelOut
  | fuel + 1, bs, item =>
    match item with
    | .ymap kvs =>
      match yGet kvs "name" with
      | some name =>
        if pyTruthy name then do
          let idx? ← scanIdx name bs
          match idx? with
          | some i => do
            let merged ← extendF fuel (bs.getD i .ynull) item
            pure (bs.set i merged)
          | none => pure (bs ++ [item])
        else pure (bs ++ [item])
      | none => pure (bs ++ [item])
    | _ => pure (bs ++ [item])

/-- The `for k, v in extension.items()` loop of the mapping branch:
`base[k] = extend(base.get(k, {}), v)`. -/
def extendMap : Nat → List (String × YVal) → List (String × YVal) →
    Except MergeErr (List (String × YVal))
  | 0, _, _ => .error .fuelOut
  | _ + 1, bkvs, [] => .ok bkvs
  | fuel + 1, bkvs, (k, v) :: rest => do
    let merged ← extendF fuel ((yGet bkvs k).getD (.ymap [])) v
    extendMap fuel (ySet bkvs k merged) rest

end

/-- The matching predicate of the sequence merge, phrased over one base
item. -/
def namedPred (name : YVal) (b : YVal) : Bool :=
  match b with
  | .ymap bkvs => (match yGet bkvs "name" with | some v => v == name | none => false)
  | _ => false

/-- Is an extension item a mapping carrying a truthy `name`? -/
def itemNamed : YVal → Bool
  | .ymap kvs => (match yGet kvs "name" with | some v => pyTruthy v | none => false)
  | _ => false

/-- On a base sequence of mappings, the linear scan with in-place update
finds exactly the first index matching the name. -/
theorem scanIdx_eq_findIdx (name : YVal) :
    ∀ bs : List YVal, (∀ b ∈ bs, ∃ m, b = .ymap m) →
    scanIdx name bs = .ok (bs.findIdx? (namedPred name)) := by
  intro bs h
  induction bs with
  | nil => rfl
  | cons b rest ih =>
    obtain ⟨m, rfl⟩ := h b (List.mem_cons_self b rest)
    rw [scanIdx]
    by_cases hm : (match yGet m "name" with | some v => v == name | none => false) = true
    · rw [if_pos hm, List.findIdx?_cons]
      simp only [namedPred, hm, if_pos]
    · rw [if_neg hm, ih (fun b hb => h b (List.mem_cons_of_mem _ hb)), List.findIdx?_cons]
      simp only [namedPred]
      rw [if_neg hm, List.findIdx?_succ]
      rfl

/-- The base and extension sequences of the C6 example. -/
def exBase : YVal := .ylist [.ymap [("name", .ystr "a")], .ymap [("name", .ystr "b")]]

/-- `[{name:a,x:1},{name:c}]`. -/
def exExt : YVal :=
  .ylist [.ymap [("name", .ystr "a"), ("x", .yint 1)], .ymap [("name", .ystr "c")]]

/-- `[{name:a,x:1},{name:b},{name:c}]`. -/
def exMerged : YVal :=
  .ylist [.ymap [("name", .ystr "a"), ("x", .yint 1)], .ymap [("name", .ystr "b")],
    .ymap [("name", .ystr "c")]]

/-- C6.  Template sequence merge: an extension item that is a mapping with a
truthy `name` matching some base item's `name` is recursively merged into the
first such base item in place (`set` at its index), every other extension
item is appended, preserving base order; merging `[{name:a},{name:b}]` with
`[{name:a,x:1},{name:c}]` yields `[{name:a,x:1},{name:b},{name:c}]`. -/
theorem load_extensions_merge_spec :
    (∀ (fuel : Nat) (bs : List YVal) (kvs : List (String × YVal)) (name : YVal),
      yGet kvs "name" = some name → pyTruthy name = true →
      (∀ b ∈ bs, ∃ m, b = .ymap m) →
      extendItem (fuel + 1) bs (.ymap kvs) =
        (match bs.findIdx? (namedPred name) with
         | some i => (extendF fuel (bs.getD i .ynull) (.ymap kvs)).map (fun m => bs.set i m)
         | none => .ok (bs ++ [.ymap kvs])))
    ∧ (∀ (fuel : Nat) (bs : List YVal) (item : YVal), itemNamed item = false →
      extendItem (fuel + 1) bs item = .ok (bs ++ [item]))
    ∧ extendF 10 exBase exExt = .ok exMerged := by
  refine ⟨?_, ?_, by rfl⟩
  · intro fuel bs kvs name hname htruthy hmaps
    rw [extendItem, hname]
    simp only [htruthy, if_true]
    rw [scanIdx_eq_findIdx name bs hmaps, except_bind_ok]
    rcases hidx : bs.findIdx? (namedPred name) with _ | i
    · rfl
    · cases extendF fuel (bs[i]?.getD YVal.ynull) (YVal.ymap kvs) <;> rfl
  · intro fuel bs item hnamed
    rcases item with s | n | b | _ | items | kvs
    · rfl
    · rfl
    · rfl
    · rfl
    · rfl
    · rw [itemNamed] at hnamed
      rw [extendItem]
      rcases hn : yGet kvs "name" with _ | v
      · rfl
      · rw [hn] at hnamed
        have hv : pyTruthy v = false := hnamed
        simp only [hv, Bool.false_eq_true, if_false]
        rfl

/-- Witness for C6: the characterization applied to a concrete matched merge
and a concrete nameless append. -/
theorem load_extensions_merge_spec_witness :
    extendItem 6 [YVal.ymap [("name", .ystr "b")]]
        (.ymap [("name", .ystr "b"), ("y", .yint 2)]) =
      .ok [YVal.ymap [("name", .ystr "b"), ("y", .yint 2)]]
    ∧ extendItem 1 [] (.yint 3) = .ok [.yint 3] := by
  constructor
  · have h := load_extensions_merge_spec.1 5 [YVal.ymap [("name", .ystr "b")]]
      [("name", .ystr "b"), ("y", .yint 2)] (.ystr "b") (by rfl) (by rfl)
      (by
        intro b hb
        simp at hb
        exact ⟨_, hb⟩)
    exact h.trans (by rfl)
  · exact load_extensions_merge_spec.2.1 0 [] (.yint 3) (by rfl)

/-! ## Metric extraction (`StreamletTaskBlueprint.extract_metrics` /
`process_result`, task.py lines 181-220, and `flatten`, helpers.py 15-26)

Raw records are nested string-keyed mappings with scalar leaves (`RVal`;
scalars are modelled as `Int`, which is what the claims exercise — the
extraction logic never inspects leaf values).  The separator
(`Settings.nested_attr_seperator`, default `"."`) is modelled as a single
character.  Python's in-place `pop` mutation is modelled by returning the
mutated record; exceptions are `Except.error`. -/

/-- A raw record value: a scalar leaf, a nested mapping, or a sequence
(`flatten` walks both mappings and lists, helpers.py:19-22). -/
inductive RVal
  | leaf (n : Int)
  | obj (kvs : List (String × RVal))
  | arr (items : List RVal)
deriving Repr

/-- Python exceptions of the extraction path, plus the `ValueError` the
`Metric` constructor raises on an absent metric when
`Settings.allow_none_metric` is unset. -/
inductive ProcErr
  | keyError
  | typeError
  | attrError
  | valueError
deriving Repr, DecidableEq

mutual

/-- The flattened leaf entries contributed by one value under key `k`. -/
def flatOfVal (k : String) : RVal → List String → List (List String × Int)
  | .leaf n, chain => [(chain ++ [k], n)]
  | .obj kvs', chain => flattenKVs kvs' (chain ++ [k])
  | .arr items, chain => flattenArr items (chain ++ [k]) 0

/-- `flatten(mapping, sep=None, chain)` over a mapping's entries: the leaf
entries of the nested value, each under its full key chain, in Python dict
insertion order. -/
def flattenKVs : List (String × RVal) → List String → List (List String × Int)
  | [], _ => []
  | (k, v) :: rest, chain => flatOfVal k v chain ++ flattenKVs rest chain

/-- `flatten`'s list branch (`else enumerate(mapping)`, helpers.py:19): a
sequence contributes its elements under their decimal index (`str(k)` is
applied when the chains are joined, so the chain stores the rendered
index). -/
def flattenArr : List RVal → List String → Nat → List (List String × Int)
  | [], _, _ => []
  | v :: rest, chain, i => flatOfVal (toString i) v chain ++ flattenArr rest chain (i + 1)

end

/-- The separator-joined form of a key chain. -/
def joinStrs (sep : Char) (parts : List String) : String :=
  (joinChar sep (parts.map String.toList)).asString

/-- The flattened, separator-joined key strings of a record object. -/
def flatJoined (sep : Char) (kvs : List (String × RVal)) : List String :=
  (flattenKVs kvs []).map (fun p => joinStrs sep p.1)

/-- Deduplication with first-occurrence order: the key view of the
`{sep.join(...): tuple(f) for f in flatten(obj).keys()}` comprehension
(later duplicates override the value but keep the first position; only the
keys are ever used). -/
def dedupGo (seen : List String) : List String → List String
  | [] => []
  | k :: rest => if k ∈ seen then dedupGo seen rest else k :: dedupGo (k :: seen) rest

/-- The pattern pool of `extract_metrics`. -/
def dedupKeys (l : List String) : List String := dedupGo [] l

/-- Python `dict.get`/`dict.__getitem__` on a record mapping. -/
def getKV : List (String × RVal) → String → Option RVal
  | [], _ => none
  | (k', v) :: rest, k => if k' = k then some v else getKV rest k

/-- Remove a key (Python `dict.pop`, key present). -/
def removeKV : List (String × RVal) → String → List (String × RVal)
  | [], _ => []
  | (k', v) :: rest, k => if k' = k then rest else (k', v) :: removeKV rest k

/-- Replace the value at a key in place. -/
def setKV : List (String × RVal) → String → RVal → List (String × RVal)
  | [], _, _ => []
  | (k', v) :: rest, k, nv => if k' = k then (k, nv) :: rest else (k', v) :: setKV rest k nv

/-- `reduce(operator.getitem, chain, obj)` followed by `nested.pop(top)`:
navigate the chain and pop the final key, rebuilding along the path (the
source mutates the shared sub-dict in place).  `keyError` models a missing
mapping key; a list raises `TypeError` both under `operator.getitem` with a
string part and under `list.pop` with a string argument; a scalar raises
`TypeError` under `getitem` and `AttributeError` under `.pop`. -/
def popAtPath : RVal → List String → String → Except ProcErr (RVal × RVal)
  | .obj kvs, [], top =>
    match getKV kvs top with
    | some pv => .ok (pv, .obj (removeKV kvs top))
    | none => .error .keyError
  | .leaf _, [], _ => .error .attrError
  | .arr _, [], _ => .error .typeError
  | .obj kvs, k :: chain, top =>
    match getKV kvs k with
    | some child => (popAtPath child chain top).map (fun p => (p.1, .obj (setKV kvs k p.2)))
    | none => .error .keyError
  | .leaf _, _ :: _, _ => .error .typeError
  | .arr _, _ :: _, _ => .error .typeError

/-- The inner `for key in fnmatch.filter(...)` loop over one pattern's
matches: split the joined key, pop it from the record, delete it from the
pool. -/
def extractKeys (sep : Char) : List String → RVal → List String →
    Except ProcErr (List (String × RVal) × List String × RVal)
  | [], obj, pool => .ok ([], pool, obj)
  | key :: rest, obj, pool => do
    let parts := (splitOnChar sep key.toList).map List.asString
    let pv ← popAtPath obj parts.dropLast (parts.getLastD "")
    let r ← extractKeys sep rest pv.2 (pool.erase key)
    pure ((key, pv.1) :: r.1, r.2)

/-- The outer `for pattern in fields or []` loop. -/
def extractPatterns (sep : Char) : List String → RVal → List String →
    Except ProcErr (List (String × RVal) × List String × RVal)
  | [], obj, pool => .ok ([], pool, obj)
  | pat :: pats, obj, pool => do
    let r1 ← extractKeys sep (pool.filter (fun k => fnmatch k pat)) obj pool
    let r2 ← extractPatterns sep pats r1.2.2 r1.2.1
    pure (r1.1 ++ r2.1, r2.2)

/-- `StreamletTaskBlueprint.extract_metrics(obj, sep, fields)`, fully
consumed (`dict(...)` drives the generator to completion): yields the
`(joined key, popped value)` pairs in claim order together with the mutated
record. -/
def extractMetrics (obj : RVal) (sep : Char) (fields : Option (List String)) :
    Except ProcErr (List (String × RVal) × RVal) :=
  match obj with
  | .leaf _ => .error .typeError
  | .obj kvs =>
    (extractPatterns sep (fields.getD []) (.obj kvs) (dedupKeys (flatJoined sep kvs))).map
      (fun r => (r.1, r.2.2))
  | .arr items =>
    (extractPatterns sep (fields.getD []) (.arr items)
      (dedupKeys ((flattenArr items [] 0).map (fun p => joinStrs sep p.1)))).map
      (fun r => (r.1, r.2.2))

/-- The record-processing configuration slice `config["result"]`. -/
structure ResConf where
  metrics : Option (List String)
  attributes : Option (List String)

/-- One `Metric` as built by `process_result` (the `Metric` class itself
lives in the absent `core/metric.py`; its constructor stores the attribute
mapping, the metric value and the source field name, and raises `ValueError`
on a `None` metric unless `Settings.allow_none_metric` is set — behavior
taken from `tests/test_core/test_metric.py`). -/
structure MetricRec where
  attributes : List (String × RVal)
  metric : Option RVal
  metricName : Option String
deriving Repr

/-- Python `dict(pairs)`: later duplicate keys override the value at the
first position. -/
def dictOfPairsGo (acc : List (String × RVal)) : List (String × RVal) → List (String × RVal)
  | [] => acc
  | (k, v) :: rest =>
    if acc.any (fun p => p.1 == k) then
      dictOfPairsGo (acc.map (fun p => if p.1 == k then (k, v) else p)) rest
    else dictOfPairsGo (acc ++ [(k, v)]) rest

/-- Python `dict(pairs)` from scratch. -/
def dictOfPairs (pairs : List (String × RVal)) : List (String × RVal) :=
  dictOfPairsGo [] pairs

/-- Python `frame.copy() | static`: the frame's entries in order with values
overridden by `static` where present, then `static`'s new keys appended. -/
def kvUnion (a b : List (String × RVal)) : List (String × RVal) :=
  a.map (fun p => match getKV b p.1 with | some v => (p.1, v) | none => p) ++
    b.filter (fun q => !(a.any (fun p => p.1 == q.1)))

/-- The record view of an extraction result (extraction starts from an
object and rebuilds objects along the path, so the default is never hit). -/
def asObjD : RVal → List (String × RVal)
  | .obj kvs => kvs
  | _ => []

/-- `process_result` on one raw record: extract the metric fields, apply the
optional attribute allow-list to the leftover record, fall back to the
`{None: None}` pseudo-metric when nothing matched, and build one Metric per
pair from the same leftover record merged with the static attributes. -/
def processRecord (sep : Char) (conf : ResConf) (static : List (String × RVal))
    (allowNone : Bool) (frame : List (String × RVal)) : Except ProcErr (List MetricRec) := do
  let er ← extractMetrics (.obj frame) sep conf.metrics
  let frameLeft :=
    match conf.attributes with
    | some attr => (asObjD er.2).filter (fun p => attr.contains p.1)
    | none => asObjD er.2
  let metricsDict :=
    (dictOfPairs er.1).map (fun p => ((some p.1 : Option String), (some p.2 : Option RVal)))
  let metricsDict := if metricsDict.isEmpty then [(none, none)] else metricsDict
  metricsDict.mapM (fun m =>
    if m.2.isNone && !allowNone then .error .valueError
    else .ok ⟨kvUnion frameLeft static, m.2, m.1⟩)

/-- `process_result` over the full result list: the queue extends across
records and replaces the frame contents once. -/
def processResult (sep : Char) (conf : ResConf) (static : List (String × RVal))
    (allowNone : Bool) (result : List (List (String × RVal))) :
    Except ProcErr (List MetricRec) := do
  let rs ← result.mapM (processRecord sep conf static allowNone)
  pure rs.flatten

/-! ### Well-formedness of records

A record is well formed when it is a nested string-keyed mapping of scalars:
every mapping in it has pairwise distinct keys (Python dicts guarantee
this) and no sequence appears anywhere (a flattened chain crossing a
sequence makes the source's navigation raise `TypeError`, the second C1
counterexample).  Chains are *good* for a separator when no key along them
contains it; the first C1 counterexample is exactly a record violating
this. -/

/-- Pairwise distinct strings, decidably. -/
def nodupStr : List String → Bool
  | [] => true
  | k :: rest => !rest.contains k && nodupStr rest

mutual

/-- Every mapping inside has pairwise distinct keys and no sequence
appears. -/
def wfR : RVal → Bool
  | .leaf _ => true
  | .obj kvs => nodupStr (kvs.map Prod.fst) && wfL kvs
  | .arr _ => false

/-- `wfR` over the values of an entry list. -/
def wfL : List (String × RVal) → Bool
  | [] => true
  | (_, v) :: rest => wfR v && wfL rest

end

/-- The flattened view of a record value: a leaf is one entry under the
empty chain. -/
def flatV : RVal → List (List String × Int)
  | .leaf n => [([], n)]
  | .obj kvs => flattenKVs kvs []
  | .arr items => flattenArr items [] 0

/-- A chain whose parts are all separator-free. -/
def goodParts (sep : Char) (parts : List String) : Bool :=
  parts.all (fun s => !s.toList.contains sep)

theorem nodupStr_iff (l : List String) : nodupStr l = true ↔ l.Nodup := by
  induction l with
  | nil => simp [nodupStr]
  | cons k rest ih =>
    rw [nodupStr, Bool.and_eq_true, ih, List.nodup_cons]
    simp [List.elem_iff]

mutual

/-- The accumulator of `flatten` only prepends to each entry's chain. -/
theorem flatOfVal_chain : ∀ (k : String) (v : RVal) (chain : List String),
    flatOfVal k v chain = (flatOfVal k v []).map (fun p => (chain ++ p.1, p.2))
  | k, .leaf n, chain => by simp [flatOfVal]
  | k, .obj kvs', chain => by
    simp only [flatOfVal, List.nil_append]
    rw [flattenKVs_chain kvs' (chain ++ [k]), flattenKVs_chain kvs' [k], List.map_map]
    simp [Function.comp]
  | k, .arr items, chain => by
    simp only [flatOfVal, List.nil_append]
    rw [flattenArr_chain items (chain ++ [k]) 0, flattenArr_chain items [k] 0, List.map_map]
    simp [Function.comp]

/-- The accumulator of `flatten` only prepends to every chain. -/
theorem flattenKVs_chain : ∀ (kvs : List (String × RVal)) (chain : List String),
    flattenKVs kvs chain = (flattenKVs kvs []).map (fun p => (chain ++ p.1, p.2))
  | [], chain => by simp [flattenKVs]
  | (k, v) :: rest, chain => by
    simp only [flattenKVs]
    rw [flatOfVal_chain k v chain, flattenKVs_chain rest chain]
    simp

/-- The accumulator of the list branch only prepends to every chain. -/
theorem flattenArr_chain : ∀ (items : List RVal) (chain : List String) (i : Nat),
    flattenArr items chain i = (flattenArr items [] i).map (fun p => (chain ++ p.1, p.2))
  | [], chain, i => by simp [flattenArr]
  | v :: rest, chain, i => by
    simp only [flattenArr]
    rw [flatOfVal_chain (toString i) v chain, flattenArr_chain rest chain (i + 1)]
    simp

end

/-- The one-entry flattened view under the empty chain. -/
theorem flatOfVal_nil (k : String) (v : RVal) :
    flatOfVal k v [] = (flatV v).map (fun p => (k :: p.1, p.2)) := by
  cases v with
  | leaf n => rfl
  | obj kvs' =>
    show flattenKVs kvs' ([] ++ [k]) = _
    rw [show (([] : List String) ++ [k]) = [k] from rfl, flattenKVs_chain kvs' [k]]
    rfl
  | arr items =>
    show flattenArr items ([] ++ [k]) 0 = _
    rw [show (([] : List String) ++ [k]) = [k] from rfl, flattenArr_chain items [k] 0]
    rfl

/-- Uniform cons equation for the flattened view. -/
theorem flat0_cons (k : String) (v : RVal) (rest : List (String × RVal)) :
    flattenKVs ((k, v) :: rest) [] =
      (flatV v).map (fun p => (k :: p.1, p.2)) ++ flattenKVs rest [] := by
  show flatOfVal k v [] ++ flattenKVs rest [] = _
  rw [flatOfVal_nil]

/-- Uniform cons equation for the list branch under the empty chain. -/
theorem flatArr_cons (i : Nat) (v : RVal) (rest : List RVal) :
    flattenArr (v :: rest) [] i =
      (flatV v).map (fun p => (toString i :: p.1, p.2)) ++ flattenArr rest [] (i + 1) := by
  show flatOfVal (toString i) v [] ++ flattenArr rest [] (i + 1) = _
  rw [flatOfVal_nil]

/-- Chains of a flattened sequence are nonempty (they start with the
element's index). -/
theorem flatArr_chain_ne_nil : ∀ (items : List RVal) (i : Nat) (p : List String × Int),
    p ∈ flattenArr items [] i → p.1 ≠ []
  | [], _, p => by intro h; cases h
  | v :: rest, i, p => by
    intro hp hnil
    rw [flatArr_cons, List.mem_append] at hp
    rcases hp with hp | hp
    · obtain ⟨q, _, rfl⟩ := List.mem_map.mp hp
      cases hnil
    · exact flatArr_chain_ne_nil rest (i + 1) p hp hnil

/-- Membership in the flattened view: one entry per leaf, its chain headed
by the entry's key. -/
theorem mem_flat0 (kvs : List (String × RVal)) (p : List String × Int) :
    p ∈ flattenKVs kvs [] ↔
      ∃ k v q, (k, v) ∈ kvs ∧ q ∈ flatV v ∧ p = (k :: q.1, q.2) := by
  induction kvs with
  | nil =>
    simp [flattenKVs]
  | cons e rest ih =>
    obtain ⟨k, v⟩ := e
    rw [flat0_cons, List.mem_append, ih]
    constructor
    · rintro (hm | ⟨k', v', q, hkv, hq, rfl⟩)
      · obtain ⟨q, hq, rfl⟩ := List.mem_map.mp hm
        exact ⟨k, v, q, List.mem_cons_self _ _, hq, rfl⟩
      · exact ⟨k', v', q, List.mem_cons_of_mem _ hkv, hq, rfl⟩
    · rintro ⟨k', v', q, hkv, hq, rfl⟩
      rcases List.mem_cons.mp hkv with heq | hkv'
      · injection heq with h1 h2
        subst h1; subst h2
        exact Or.inl (List.mem_map.mpr ⟨q, hq, rfl⟩)
      · exact Or.inr ⟨k', v', q, hkv', hq, rfl⟩

theorem getKV_eq_of_mem (kvs : List (String × RVal)) (k : String) (v : RVal)
    (hnd : (kvs.map Prod.fst).Nodup) (hm : (k, v) ∈ kvs) : getKV kvs k = some v := by
  induction kvs with
  | nil => cases hm
  | cons e rest ih =>
    obtain ⟨k', v'⟩ := e
    rw [List.map_cons, List.nodup_cons] at hnd
    rcases List.mem_cons.mp hm with heq | hm'
    · injection heq with h1 h2
      subst h1; subst h2
      rw [getKV, if_pos rfl]
    · have hk : k' ≠ k := by
        intro hh
        subst hh
        exact hnd.1 (List.mem_map.mpr ⟨(k', v), hm', rfl⟩)
      rw [getKV, if_neg hk]
      exact ih hnd.2 hm'

/-- The unique entry of a nodup-keyed mapping. -/
theorem mem_eq_of_nodup (kvs : List (String × RVal)) (k : String) (v w : RVal)
    (hnd : (kvs.map Prod.fst).Nodup) (hv : (k, v) ∈ kvs) (hw : (k, w) ∈ kvs) : v = w := by
  have h1 := getKV_eq_of_mem kvs k v hnd hv
  have h2 := getKV_eq_of_mem kvs k w hnd hw
  rw [h1] at h2
  injection h2

theorem wfL_iff (kvs : List (String × RVal)) :
    wfL kvs = true ↔ ∀ p ∈ kvs, wfR p.2 = true := by
  induction kvs with
  | nil => simp [wfL]
  | cons e rest ih =>
    obtain ⟨k, v⟩ := e
    rw [wfL, Bool.and_eq_true, ih]
    constructor
    · rintro ⟨h1, h2⟩ p hp
      rcases List.mem_cons.mp hp with rfl | hp'
      · exact h1
      · exact h2 p hp'
    · intro h
      exact ⟨h (k, v) (List.mem_cons_self _ _), fun p hp => h p (List.mem_cons_of_mem _ hp)⟩

mutual

theorem flatV_chains_nodup : ∀ (v : RVal), wfR v = true → ((flatV v).map Prod.fst).Nodup
  | .leaf n, _ => by simp [flatV]
  | .obj kvs, h => by
    rw [wfR, Bool.and_eq_true, nodupStr_iff] at h
    exact flat0_chains_nodup kvs h.1 h.2
  | .arr items, h => by simp [wfR] at h

theorem flat0_chains_nodup : ∀ (kvs : List (String × RVal)),
    (kvs.map Prod.fst).Nodup → wfL kvs = true →
    ((flattenKVs kvs []).map Prod.fst).Nodup
  | [], _, _ => by simp [flattenKVs]
  | (k, v) :: rest, hnd, hwf => by
    rw [List.map_cons, List.nodup_cons] at hnd
    rw [wfL, Bool.and_eq_true] at hwf
    rw [flat0_cons, List.map_append, List.map_map]
    refine List.Nodup.append ?_ (flat0_chains_nodup rest hnd.2 hwf.2) ?_
    · have hv := flatV_chains_nodup v hwf.1
      have : (Prod.fst ∘ fun p : List String × Int => (k :: p.1, p.2)) =
          (fun c => k :: c) ∘ Prod.fst := rfl
      rw [this, ← List.map_map]
      exact hv.map (fun a b h => by injection h)
    · intro c h1 h2
      obtain ⟨p, _, rfl⟩ := List.mem_map.mp h1
      obtain ⟨q, hq, hqc⟩ := List.mem_map.mp h2
      obtain ⟨k', v', q', hkv', _, rfl⟩ := (mem_flat0 rest q).mp hq
      have : k' = k := by
        have h' := congrArg (fun l => l.headD "") hqc
        simpa using h'
      subst this
      exact hnd.1 (List.mem_map.mpr ⟨(k', v'), hkv', rfl⟩)

end

/-! ### Effect of `pop` on the flattened view -/

theorem removeKV_sublist (kvs : List (String × RVal)) (k : String) :
    (removeKV kvs k).Sublist kvs := by
  induction kvs with
  | nil => exact List.Sublist.refl []
  | cons e rest ih =>
    obtain ⟨k', v⟩ := e
    rw [removeKV]
    by_cases h : k' = k
    · rw [if_pos h]
      exact List.sublist_cons_self _ _
    · rw [if_neg h]
      exact ih.cons₂ _

theorem head_ne_of_mem_flat0 (kvs : List (String × RVal)) (p : List String × Int)
    (k : String) (hp : p ∈ flattenKVs kvs []) (hk : k ∉ kvs.map Prod.fst) :
    (p.1.headD "" != k) = true := by
  obtain ⟨k', v', q, hkv, _, rfl⟩ := (mem_flat0 kvs p).mp hp
  simp only [List.headD_cons, bne_iff_ne, ne_eq]
  intro hh
  subst hh
  exact hk (List.mem_map.mpr ⟨(k', v'), hkv, rfl⟩)

/-- `dict.pop(k)` removes exactly the `k`-headed chains from the flattened
view. -/
theorem removeKV_flat0 (kvs : List (String × RVal)) (k : String)
    (hnd : (kvs.map Prod.fst).Nodup) :
    flattenKVs (removeKV kvs k) [] =
      (flattenKVs kvs []).filter (fun p => p.1.headD "" != k) := by
  induction kvs with
  | nil => simp [removeKV, flattenKVs]
  | cons e rest ih =>
    obtain ⟨k', v⟩ := e
    rw [List.map_cons, List.nodup_cons] at hnd
    rw [removeKV, flat0_cons, List.filter_append]
    by_cases h : k' = k
    · subst h
      rw [if_pos rfl]
      have hdrop : ((flatV v).map (fun p => (k' :: p.1, p.2))).filter
          (fun p => p.1.headD "" != k') = [] := by
        rw [List.filter_eq_nil_iff]
        intro a ha
        obtain ⟨q, _, rfl⟩ := List.mem_map.mp ha
        simp
      have hkeep : (flattenKVs rest []).filter (fun p => p.1.headD "" != k') =
          flattenKVs rest [] :=
        List.filter_eq_self.mpr (fun p hp => head_ne_of_mem_flat0 rest p k' hp hnd.1)
      rw [hdrop, hkeep, List.nil_append]
    · rw [if_neg h, flat0_cons, ih hnd.2]
      have hkeep : ((flatV v).map (fun p => (k' :: p.1, p.2))).filter
          (fun p => p.1.headD "" != k) = (flatV v).map (fun p => (k' :: p.1, p.2)) := by
        rw [List.filter_eq_self]
        intro a ha
        obtain ⟨q, _, rfl⟩ := List.mem_map.mp ha
        simpa using h
      rw [hkeep]

theorem setKV_keys (kvs : List (String × RVal)) (k : String) (nv : RVal) :
    (setKV kvs k nv).map Prod.fst = kvs.map Prod.fst := by
  induction kvs with
  | nil => rfl
  | cons e rest ih =>
    obtain ⟨k', v⟩ := e
    rw [setKV]
    by_cases h : k' = k
    · subst h
      rw [if_pos rfl]
      rfl
    · rw [if_neg h, List.map_cons, List.map_cons, ih]

theorem setKV_wfL (kvs : List (String × RVal)) (k : String) (nv : RVal)
    (hwf : wfL kvs = true) (hnv : wfR nv = true) : wfL (setKV kvs k nv) = true := by
  induction kvs with
  | nil => exact hwf
  | cons e rest ih =>
    obtain ⟨k', v⟩ := e
    rw [wfL, Bool.and_eq_true] at hwf
    rw [setKV]
    by_cases h : k' = k
    · rw [if_pos h, wfL, Bool.and_eq_true]
      exact ⟨hnv, hwf.2⟩
    · rw [if_neg h, wfL, Bool.and_eq_true]
      exact ⟨hwf.1, ih hwf.2⟩

theorem removeKV_wfL (kvs : List (String × RVal)) (k : String)
    (hwf : wfL kvs = true) : wfL (removeKV kvs k) = true := by
  rw [wfL_iff] at hwf ⊢
  exact fun p hp => hwf p ((removeKV_sublist kvs k).mem hp)

/-- Replacing one child's subtree by a filtered version filters the whole
flattened view. -/
theorem setKV_flat0 (kvs : List (String × RVal)) (c : String) (child child' : RVal)
    (tpath : List String) (hnd : (kvs.map Prod.fst).Nodup) (hm : (c, child) ∈ kvs)
    (hrepl : flatV child' = (flatV child).filter (fun q => q.1 != tpath)) :
    flattenKVs (setKV kvs c child') [] =
      (flattenKVs kvs []).filter (fun p => p.1 != c :: tpath) := by
  induction kvs with
  | nil => cases hm
  | cons e rest ih =>
    obtain ⟨k', v⟩ := e
    rw [List.map_cons, List.nodup_cons] at hnd
    rw [setKV, flat0_cons, List.filter_append]
    by_cases h : k' = c
    · subst h
      have hv : v = child := by
        rcases List.mem_cons.mp hm with heq | hm'
        · injection heq with _ h2
          exact h2.symm
        · exact absurd (List.mem_map.mpr ⟨(k', child), hm', rfl⟩) hnd.1
      subst hv
      rw [if_pos rfl, flat0_cons, hrepl]
      have hblock : ((flatV v).map (fun p => (k' :: p.1, p.2))).filter
          (fun p => p.1 != k' :: tpath) =
          ((flatV v).filter (fun q => q.1 != tpath)).map (fun p => (k' :: p.1, p.2)) := by
        rw [List.filter_map]
        congr 1
        refine List.filter_congr (fun q _ => ?_)
        show ((k' :: q.1, q.2).1 != k' :: tpath) = (q.1 != tpath)
        by_cases hq : q.1 = tpath
        · simp [hq]
        · have h1 : (q.1 != tpath) = true := bne_iff_ne.mpr hq
          have h2 : (k' :: q.1 != k' :: tpath) = true := bne_iff_ne.mpr (by
            intro hh
            exact hq (by injection hh))
          rw [h1, h2]
      have hkeep : (flattenKVs rest []).filter (fun p => p.1 != k' :: tpath) =
          flattenKVs rest [] := by
        rw [List.filter_eq_self]
        intro p hp
        have hhead := head_ne_of_mem_flat0 rest p k' hp hnd.1
        simp only [bne_iff_ne, ne_eq] at hhead ⊢
        intro hh
        rw [hh] at hhead
        simp at hhead
      rw [hblock, hkeep]
    · have hm' : (c, child) ∈ rest := by
        rcases List.mem_cons.mp hm with heq | hm'
        · injection heq with h1 _
          exact absurd h1.symm h
        · exact hm'
      rw [if_neg h, flat0_cons, ih hnd.2 hm']
      have hkeep : ((flatV v).map (fun p => (k' :: p.1, p.2))).filter
          (fun p => p.1 != c :: tpath) = (flatV v).map (fun p => (k' :: p.1, p.2)) := by
        rw [List.filter_eq_self]
        intro a ha
        obtain ⟨q, _, rfl⟩ := List.mem_map.mp ha
        simpa using fun hh _ => h hh
      rw [hkeep]

/-- Master lemma for one `pop`: on a well-formed record, popping a flattened
chain succeeds, returns that leaf, removes exactly that chain from the
flattened view (in place), and preserves well-formedness. -/
theorem popAtPath_spec : ∀ (chain : List String) (v : RVal) (top : String),
    wfR v = true → (chain ++ [top]) ∈ (flatV v).map Prod.fst →
    ∃ (n : Int) (kvs' : List (String × RVal)),
      popAtPath v chain top = .ok (.leaf n, .obj kvs')
      ∧ flatV (.obj kvs') = (flatV v).filter (fun p => p.1 != chain ++ [top])
      ∧ wfR (.obj kvs') = true := by
  intro chain
  induction chain with
  | nil =>
    intro v top hwf hm
    obtain ⟨p, hp, hfst⟩ := List.mem_map.mp hm
    rcases v with n | kvs | items
    · rw [flatV] at hp
      simp at hp
      rw [hp] at hfst
      simp at hfst
    · rw [flatV] at hp
      obtain ⟨k, v', q, hkv, hq, rfl⟩ := (mem_flat0 kvs p).mp hp
      simp only [List.nil_append] at hfst
      injection hfst with hk hq1
      subst hk
      rw [wfR, Bool.and_eq_true, nodupStr_iff] at hwf
      rcases v' with n | kvs'' | items'
      · have hget : getKV kvs k = some (.leaf n) := getKV_eq_of_mem kvs k _ hwf.1 hkv
        refine ⟨n, removeKV kvs k, ?_, ?_, ?_⟩
        · rw [popAtPath, hget]
        · rw [flatV, flatV, removeKV_flat0 kvs k hwf.1]
          refine List.filter_congr (fun p hp' => ?_)
          obtain ⟨k0, v0, q0, hkv0, hq0, rfl⟩ := (mem_flat0 kvs p).mp hp'
          simp only [List.nil_append]
          by_cases hk0 : k0 = k
          · subst hk0
            have hv0 : v0 = .leaf n := mem_eq_of_nodup kvs k0 v0 (.leaf n) hwf.1 hkv0 hkv
            subst hv0
            rw [flatV] at hq0
            simp at hq0
            rw [hq0]
            simp
          · simp only [List.headD_cons]
            have h1 : (k0 != k) = true := bne_iff_ne.mpr hk0
            have h2 : (k0 :: q0.1 != [k]) = true := bne_iff_ne.mpr (by
              intro hh
              exact hk0 (by injection hh))
            rw [h1, h2]
        · rw [wfR, Bool.and_eq_true, nodupStr_iff]
          refine ⟨((removeKV_sublist kvs k).map Prod.fst).nodup hwf.1,
            removeKV_wfL kvs k ((wfL_iff kvs).mpr (fun p hp' => ?_))⟩
          exact (wfL_iff kvs).mp hwf.2 p hp'
      · rw [flatV] at hq
        rcases List.eq_nil_or_concat q.1 with hq1' | _
        · obtain ⟨k'', v'', q'', _, _, hq''⟩ := (mem_flat0 kvs'' q).mp hq
          rw [hq''] at hq1
          cases hq1
        · obtain ⟨k'', v'', q'', _, _, hq''⟩ := (mem_flat0 kvs'' q).mp hq
          rw [hq''] at hq1
          cases hq1
      · rw [flatV] at hq
        exact absurd hq1 (flatArr_chain_ne_nil items' 0 q hq)
    · simp [wfR] at hwf
  | cons c chain' ih =>
    intro v top hwf hm
    obtain ⟨p, hp, hfst⟩ := List.mem_map.mp hm
    rcases v with n | kvs | items
    · rw [flatV] at hp
      simp at hp
      rw [hp] at hfst
      simp at hfst
    · rw [flatV] at hp
      obtain ⟨k, child, q, hkv, hq, rfl⟩ := (mem_flat0 kvs p).mp hp
      rw [List.cons_append] at hfst
      injection hfst with hk hq1
      subst hk
      rw [wfR, Bool.and_eq_true, nodupStr_iff] at hwf
      have hget : getKV kvs k = some child := getKV_eq_of_mem kvs k _ hwf.1 hkv
      have hwfchild : wfR child = true := (wfL_iff kvs).mp hwf.2 (k, child) hkv
      have hmchild : (chain' ++ [top]) ∈ (flatV child).map Prod.fst := by
        rw [← hq1]
        exact List.mem_map.mpr ⟨q, hq, rfl⟩
      obtain ⟨n, kvs'', hpop, hflat, hwf''⟩ := ih child top hwfchild hmchild
      refine ⟨n, setKV kvs k (.obj kvs''), ?_, ?_, ?_⟩
      · rw [popAtPath, hget]
        show Except.map (fun p => (p.1, RVal.obj (setKV kvs k p.2)))
          (popAtPath child chain' top) = _
        rw [hpop]
        rfl
      · rw [flatV, flatV]
        rw [setKV_flat0 kvs k child (.obj kvs'') (chain' ++ [top]) hwf.1 hkv
          (by rw [hflat])]
        rfl
      · rw [wfR, Bool.and_eq_true, nodupStr_iff, setKV_keys]
        exact ⟨hwf.1, setKV_wfL kvs k _ hwf.2 hwf''⟩
    · simp [wfR] at hwf

/-! ### Joined keys -/

/-- Splitting a good joined chain recovers its parts. -/
theorem split_joinStrs (sep : Char) (parts : List String)
    (hgood : goodParts sep parts = true) (hne : parts ≠ []) :
    (splitOnChar sep (joinStrs sep parts).toList).map List.asString = parts := by
  have h1 : (joinStrs sep parts).toList = joinChar sep (parts.map String.toList) := rfl
  rw [h1, splitOnChar_joinChar]
  · rw [List.map_map]
    have : (List.asString ∘ String.toList) = id := by
      funext s
      rfl
    rw [this, List.map_id]
  · simpa using hne
  · intro p hp
    obtain ⟨s, hs, rfl⟩ := List.mem_map.mp hp
    rw [goodParts, List.all_eq_true] at hgood
    have hg := hgood s hs
    rw [Bool.not_eq_true'] at hg
    intro hmem
    have hc : s.toList.contains sep = true := List.elem_eq_true_of_mem hmem
    rw [hc] at hg
    cases hg

/-- `joinStrs` is injective on good nonempty chains. -/
theorem joinStrs_inj (sep : Char) (a b : List String)
    (ha : goodParts sep a = true) (hb : goodParts sep b = true)
    (hna : a ≠ []) (hnb : b ≠ []) (h : joinStrs sep a = joinStrs sep b) : a = b := by
  have h2 := congrArg (fun s => (splitOnChar sep s.toList).map List.asString) h
  simp only at h2
  rwa [split_joinStrs sep a ha hna, split_joinStrs sep b hb hnb] at h2

theorem concat_dropLast_getLastD : ∀ (l : List String), l ≠ [] →
    l.dropLast ++ [l.getLastD ""] = l
  | [], h => absurd rfl h
  | [x], _ => rfl
  | x :: y :: t, _ => by
    rw [show (x :: y :: t).dropLast = x :: (y :: t).dropLast from rfl,
      show (x :: y :: t).getLastD "" = (y :: t).getLastD "" from rfl, List.cons_append,
      concat_dropLast_getLastD (y :: t) (by simp)]

theorem dedupGo_eq_self (seen : List String) (l : List String) (hnd : l.Nodup)
    (hdisj : ∀ k ∈ l, k ∉ seen) : dedupGo seen l = l := by
  induction l generalizing seen with
  | nil => rfl
  | cons k rest ih =>
    rw [List.nodup_cons] at hnd
    rw [dedupGo, if_neg (hdisj k (List.mem_cons_self _ _))]
    rw [ih (k :: seen) hnd.2 (fun k' hk' => by
      intro hm
      rcases List.mem_cons.mp hm with rfl | hm'
      · exact hnd.1 hk'
      · exact hdisj k' (List.mem_cons_of_mem _ hk') hm')]

theorem getKV_mem (kvs : List (String × RVal)) (k : String) (v : RVal)
    (h : getKV kvs k = some v) : (k, v) ∈ kvs := by
  induction kvs with
  | nil => cases h
  | cons e rest ih =>
    obtain ⟨k', v'⟩ := e
    rw [getKV] at h
    by_cases hk : k' = k
    · rw [if_pos hk] at h
      injection h with h'
      subst hk
      exact h' ▸ List.mem_cons_self _ _
    · rw [if_neg hk] at h
      exact List.mem_cons_of_mem _ (ih h)

theorem flat0_append (a b : List (String × RVal)) :
    flattenKVs (a ++ b) [] = flattenKVs a [] ++ flattenKVs b [] := by
  induction a with
  | nil => simp [flattenKVs]
  | cons e rest ih =>
    obtain ⟨k, v⟩ := e
    rw [List.cons_append, flat0_cons, flat0_cons, ih, List.append_assoc]

/-- A flattened key of the filtered record is a flattened key of the record. -/
theorem mem_flatJoined_filter (sep : Char) (l : List (String × RVal))
    (pred : String × RVal → Bool) (k : String)
    (h : k ∈ flatJoined sep (l.filter pred)) : k ∈ flatJoined sep l := by
  rw [flatJoined, List.mem_map] at h ⊢
  obtain ⟨p, hp, rfl⟩ := h
  obtain ⟨k', v', q, hkv, hq, rfl⟩ := (mem_flat0 _ p).mp hp
  exact ⟨_, (mem_flat0 l _).mpr ⟨k', v', q, (List.mem_filter.mp hkv).1, hq, rfl⟩, rfl⟩

/-- A flattened key of a dict union comes from one of its operands. -/
theorem mem_flatJoined_kvUnion (sep : Char) (a b : List (String × RVal)) (k : String)
    (h : k ∈ flatJoined sep (kvUnion a b)) :
    k ∈ flatJoined sep a ∨ k ∈ flatJoined sep b := by
  rw [flatJoined, List.mem_map] at h
  obtain ⟨p, hp, rfl⟩ := h
  rw [kvUnion, flat0_append, List.mem_append] at hp
  rcases hp with hp | hp
  · obtain ⟨k', v', q, hkv, hq, rfl⟩ := (mem_flat0 _ p).mp hp
    obtain ⟨e, he, heq⟩ := List.mem_map.mp hkv
    obtain ⟨ka, va⟩ := e
    simp only at heq
    rcases hget : getKV b ka with _ | vb
    · left
      rw [hget] at heq
      injection heq with h1 h2
      subst h1
      subst h2
      exact List.mem_map.mpr ⟨_, (mem_flat0 a _).mpr ⟨ka, va, q, he, hq, rfl⟩, rfl⟩
    · right
      rw [hget] at heq
      injection heq with h1 h2
      subst h1
      subst h2
      exact List.mem_map.mpr
        ⟨_, (mem_flat0 b _).mpr ⟨ka, vb, q, getKV_mem b ka vb hget, hq, rfl⟩, rfl⟩
  · obtain ⟨k', v', q, hkv, hq, rfl⟩ := (mem_flat0 _ p).mp hp
    exact Or.inr (List.mem_map.mpr
      ⟨_, (mem_flat0 b _).mpr ⟨k', v', q, (List.mem_filter.mp hkv).1, hq, rfl⟩, rfl⟩)

/-- `dict(pairs)` is the identity on nodup-keyed pair lists. -/
theorem dictOfPairsGo_eq (acc : List (String × RVal)) (pairs : List (String × RVal))
    (hnd : (pairs.map Prod.fst).Nodup)
    (hdisj : ∀ p ∈ pairs, ¬acc.any (fun q => q.1 == p.1) = true) :
    dictOfPairsGo acc pairs = acc ++ pairs := by
  induction pairs generalizing acc with
  | nil => simp [dictOfPairsGo]
  | cons p rest ih =>
    obtain ⟨k, v⟩ := p
    rw [List.map_cons, List.nodup_cons] at hnd
    rw [dictOfPairsGo, if_neg (hdisj (k, v) (List.mem_cons_self _ _))]
    rw [ih (acc ++ [(k, v)]) hnd.2 (fun p hp => ?_), List.append_assoc]
    · rfl
    · intro hany
      rw [List.any_eq_true] at hany
      obtain ⟨q, hq, hqk⟩ := hany
      rcases List.mem_append.mp hq with hq' | hq'
      · exact hdisj p (List.mem_cons_of_mem _ hp)
          (List.any_eq_true.mpr ⟨q, hq', hqk⟩)
      · rw [List.mem_singleton] at hq'
        rw [hq'] at hqk
        have hkp : k = p.1 := by simpa using hqk
        exact hnd.1 (hkp ▸ List.mem_map.mpr ⟨p, hp, rfl⟩)

theorem dictOfPairs_eq_self (pairs : List (String × RVal))
    (hnd : (pairs.map Prod.fst).Nodup) : dictOfPairs pairs = pairs := by
  rw [dictOfPairs, dictOfPairsGo_eq [] pairs hnd (fun p _ => by simp)]
  rfl

/-! ### The extraction loop invariant -/

/-- Invariant carried through the extraction loops: the record is a
well-formed object whose chains are good, and the pool is exactly the joined
flattened key list of the current record. -/
def extractInv (sep : Char) (obj : RVal) (pool : List String) : Prop :=
  (∃ kvs, obj = .obj kvs) ∧ wfR obj = true
    ∧ (∀ p ∈ flatV obj, goodParts sep p.1 = true ∧ p.1 ≠ [])
    ∧ pool = (flatV obj).map (fun p => joinStrs sep p.1)

theorem pool_nodup (sep : Char) (obj : RVal) (pool : List String)
    (h : extractInv sep obj pool) : pool.Nodup := by
  obtain ⟨⟨kvs, rfl⟩, hwf, hgood, rfl⟩ := h
  have hchains := flatV_chains_nodup _ hwf
  have hrw : (flatV (RVal.obj kvs)).map (fun p => joinStrs sep p.1) =
      ((flatV (RVal.obj kvs)).map Prod.fst).map (joinStrs sep) := by
    rw [List.map_map]
    rfl
  rw [hrw]
  refine List.Nodup.map_on ?_ hchains
  intro x hx y hy hxy
  obtain ⟨px, hpx, rfl⟩ := List.mem_map.mp hx
  obtain ⟨py, hpy, rfl⟩ := List.mem_map.mp hy
  exact joinStrs_inj sep px.1 py.1 (hgood px hpx).1 (hgood py hpy).1
    (hgood px hpx).2 (hgood py hpy).2 hxy

/-- One pattern's key loop: processing a nodup list of pool keys succeeds,
yields one `(key, leaf)` pair per key in order, deletes exactly those keys
from the pool and exactly those chains from the record, and re-establishes
the invariant. -/
theorem extractKeys_spec (sep : Char) : ∀ (ks : List String) (obj : RVal)
    (pool : List String), extractInv sep obj pool → ks.Nodup →
    (∀ k ∈ ks, k ∈ pool) →
    ∃ (pairs : List (String × RVal)) (obj' : RVal),
      extractKeys sep ks obj pool =
        .ok (pairs, pool.filter (fun k => decide (k ∉ ks)), obj')
      ∧ pairs.map Prod.fst = ks
      ∧ flatV obj' = (flatV obj).filter (fun p => decide (joinStrs sep p.1 ∉ ks))
      ∧ extractInv sep obj' (pool.filter (fun k => decide (k ∉ ks))) := by
  intro ks
  induction ks with
  | nil =>
    intro obj pool hinv _ _
    refine ⟨[], obj, ?_, rfl, ?_, ?_⟩
    · rw [extractKeys]
      congr 1
      rw [List.filter_eq_self.mpr (fun a _ => by simp)]
    · rw [List.filter_eq_self.mpr (fun a _ => by simp)]
    · rw [List.filter_eq_self.mpr (fun a _ => by simp)]
      exact hinv
  | cons key rest ih =>
    intro obj pool hinv hnd hsub
    have hinv' := hinv
    obtain ⟨⟨kvs, rfl⟩, hwf, hgood, hpool⟩ := hinv'
    rw [List.nodup_cons] at hnd
    have hkeymem : key ∈ pool := hsub key (List.mem_cons_self _ _)
    obtain ⟨p, hpmem, hkey⟩ := List.mem_map.mp (hpool ▸ hkeymem)
    have hpgood := hgood p hpmem
    have hconcat : p.1.dropLast ++ [p.1.getLastD ""] = p.1 :=
      concat_dropLast_getLastD p.1 hpgood.2
    have hparts : (splitOnChar sep key.toList).map List.asString = p.1 := by
      rw [← hkey]
      exact split_joinStrs sep p.1 hpgood.1 hpgood.2
    have hmemchain : (p.1.dropLast ++ [p.1.getLastD ""]) ∈
        (flatV (RVal.obj kvs)).map Prod.fst := by
      rw [hconcat]
      exact List.mem_map.mpr ⟨p, hpmem, rfl⟩
    obtain ⟨n, kvs', hpop, hflat, hwf'⟩ :=
      popAtPath_spec p.1.dropLast (RVal.obj kvs) (p.1.getLastD "") hwf hmemchain
    rw [hconcat] at hflat
    have hpoolnd : pool.Nodup := pool_nodup sep _ pool hinv
    -- the filtered flattened view, re-expressed through the joined keys
    have hflatj : flatV (RVal.obj kvs') =
        (flatV (RVal.obj kvs)).filter (fun q => decide (joinStrs sep q.1 ≠ key)) := by
      rw [hflat]
      refine List.filter_congr (fun q hq => ?_)
      by_cases hqp : q.1 = p.1
      · rw [hqp, ← hkey]
        simp
      · have hne : joinStrs sep q.1 ≠ key := by
          rw [← hkey]
          intro hj
          exact hqp (joinStrs_inj sep q.1 p.1 (hgood q hq).1 hpgood.1
            (hgood q hq).2 hpgood.2 hj)
        rw [decide_eq_true hne, bne_iff_ne.mpr hqp]
    have herase : pool.erase key = pool.filter (fun k => decide (k ≠ key)) := by
      rw [hpoolnd.erase_eq_filter]
      refine List.filter_congr (fun a _ => ?_)
      by_cases ha : a = key <;> simp [ha]
    have hinvnew : extractInv sep (RVal.obj kvs') (pool.erase key) := by
      refine ⟨⟨kvs', rfl⟩, hwf', ?_, ?_⟩
      · intro q hq
        rw [hflatj] at hq
        exact hgood q (List.mem_filter.mp hq).1
      · rw [herase, hflatj, hpool]
        rw [List.filter_map]
        rfl
    have hsub' : ∀ k ∈ rest, k ∈ pool.erase key := by
      intro k hk
      rw [herase, List.mem_filter]
      refine ⟨hsub k (List.mem_cons_of_mem _ hk), ?_⟩
      simp only [decide_eq_true_eq]
      intro hh
      exact hnd.1 (hh ▸ hk)
    obtain ⟨pairs, obj', heq, hfst, hflat2, hinv2⟩ :=
      ih (RVal.obj kvs') (pool.erase key) hinvnew hnd.2 hsub'
    have hpoolcomp : (pool.erase key).filter (fun k => decide (k ∉ rest)) =
        pool.filter (fun k => decide (k ∉ key :: rest)) := by
      rw [herase, List.filter_filter]
      refine List.filter_congr (fun a _ => ?_)
      by_cases h1 : a = key
      · simp [h1]
      · by_cases h2 : a ∈ rest <;> simp [h1, h2]
    have hflatcomp : (flatV (RVal.obj kvs')).filter
        (fun q => decide (joinStrs sep q.1 ∉ rest)) =
        (flatV (RVal.obj kvs)).filter
          (fun q => decide (joinStrs sep q.1 ∉ key :: rest)) := by
      rw [hflatj, List.filter_filter]
      refine List.filter_congr (fun q _ => ?_)
      by_cases h1 : joinStrs sep q.1 = key
      · simp [h1]
      · by_cases h2 : joinStrs sep q.1 ∈ rest <;> simp [h1, h2]
    refine ⟨(key, .leaf n) :: pairs, obj', ?_, ?_, ?_, ?_⟩
    · rw [extractKeys]
      rw [hparts, hpop, except_bind_ok, heq, except_bind_ok]
      rw [hpoolcomp]
      rfl
    · rw [List.map_cons, hfst]
    · rw [hflat2, hflatcomp]
    · rw [← hpoolcomp]
      exact hinv2

/-- The pattern loop: patterns are evaluated in list order against the pool,
each matched key is claimed exactly once (claimed keys are deleted from the
pool before later patterns are evaluated), and a key is claimed iff it is in
the pool and glob-matches some pattern. -/
theorem extractPatterns_spec (sep : Char) : ∀ (pats : List String) (obj : RVal)
    (pool : List String), extractInv sep obj pool →
    ∃ (pairs : List (String × RVal)) (obj' : RVal),
      extractPatterns sep pats obj pool =
        .ok (pairs, pool.filter (fun k => decide (k ∉ pairs.map Prod.fst)), obj')
      ∧ (pairs.map Prod.fst).Nodup
      ∧ (∀ k, k ∈ pairs.map Prod.fst ↔
          (k ∈ pool ∧ ∃ pat ∈ pats, fnmatch k pat = true))
      ∧ flatV obj' = (flatV obj).filter
          (fun p => decide (joinStrs sep p.1 ∉ pairs.map Prod.fst))
      ∧ extractInv sep obj' (pool.filter (fun k => decide (k ∉ pairs.map Prod.fst))) := by
  intro pats
  induction pats with
  | nil =>
    intro obj pool hinv
    refine ⟨[], obj, ?_, List.nodup_nil, ?_, ?_, ?_⟩
    · rw [extractPatterns]
      congr 1
      rw [List.filter_eq_self.mpr (fun a _ => by simp)]
    · intro k
      simp
    · rw [List.filter_eq_self.mpr (fun a _ => by simp)]
    · rw [List.filter_eq_self.mpr (fun a _ => by simp)]
      exact hinv
  | cons pat pats ih =>
    intro obj pool hinv
    have hpoolnd := pool_nodup sep obj pool hinv
    have hmatched : ∀ k ∈ pool.filter (fun k => fnmatch k pat), k ∈ pool :=
      fun k hk => (List.mem_filter.mp hk).1
    obtain ⟨pairs1, obj1, heq1, hfst1, hflat1, hinv1⟩ :=
      extractKeys_spec sep (pool.filter (fun k => fnmatch k pat)) obj pool hinv
        (hpoolnd.filter _) hmatched
    obtain ⟨pairs2, obj2, heq2, hnd2, hiff2, hflat2, hinv2⟩ :=
      ih obj1 (pool.filter fun k =>
        decide (k ∉ pool.filter (fun k' => fnmatch k' pat))) hinv1
    set matched := pool.filter (fun k => fnmatch k pat) with hmdef
    set ks2 := pairs2.map Prod.fst with hks2
    have hdisj : ∀ k ∈ ks2, k ∉ matched := by
      intro k hk
      have := ((hiff2 k).mp hk).1
      rw [List.mem_filter] at this
      simpa using this.2
    have hkeys : (pairs1 ++ pairs2).map Prod.fst = matched ++ ks2 := by
      rw [List.map_append, hfst1]
    have hpoolcomp : ∀ l : List String,
        (l.filter (fun k => decide (k ∉ matched))).filter
          (fun k => decide (k ∉ ks2)) =
        l.filter (fun k => decide (k ∉ matched ++ ks2)) := by
      intro l
      rw [List.filter_filter]
      refine List.filter_congr (fun a _ => ?_)
      by_cases h1 : a ∈ matched
      · simp [h1]
      · by_cases h2 : a ∈ ks2 <;> simp [h1, h2]
    refine ⟨pairs1 ++ pairs2, obj2, ?_, ?_, ?_, ?_, ?_⟩
    · rw [extractPatterns]
      rw [heq1]
      simp only [except_bind_ok]
      rw [heq2]
      simp only [except_bind_ok]
      rw [hkeys, ← hpoolcomp pool]
      rfl
    · rw [hkeys]
      refine List.Nodup.append (hpoolnd.filter _) hnd2 ?_
      intro a ha1 ha2
      exact hdisj a ha2 ha1
    · intro k
      rw [hkeys, List.mem_append]
      constructor
      · rintro (hk | hk)
        · rw [List.mem_filter] at hk
          exact ⟨hk.1, pat, List.mem_cons_self _ _, hk.2⟩
        · obtain ⟨hk1, pat', hpat', hfn⟩ := (hiff2 k).mp hk
          rw [List.mem_filter] at hk1
          exact ⟨hk1.1, pat', List.mem_cons_of_mem _ hpat', hfn⟩
      · rintro ⟨hkpool, pat', hpat', hfn⟩
        by_cases hm : k ∈ matched
        · exact Or.inl hm
        · rcases List.mem_cons.mp hpat' with rfl | hpat''
          · exact absurd (List.mem_filter.mpr ⟨hkpool, hfn⟩) hm
          · refine Or.inr ((hiff2 k).mpr ⟨?_, pat', hpat'', hfn⟩)
            rw [List.mem_filter]
            exact ⟨hkpool, by simpa using hm⟩
    · rw [hkeys, hflat2, hflat1, List.filter_filter]
      refine List.filter_congr (fun q _ => ?_)
      by_cases h1 : joinStrs sep q.1 ∈ matched
      · simp [h1]
      · by_cases h2 : joinStrs sep q.1 ∈ ks2 <;> simp [h1, h2]
    · rw [hkeys, ← hpoolcomp pool]
      exact hinv2

theorem mapM_ok_of_forall {α β : Type} (f : α → Except ProcErr β) (g : α → β) :
    ∀ (l : List α), (∀ a ∈ l, f a = .ok (g a)) → l.mapM f = .ok (l.map g) := by
  intro l h
  induction l with
  | nil => rfl
  | cons a rest ih =>
    rw [List.mapM_cons, h a (List.mem_cons_self _ _),
      ih (fun a' ha' => h a' (List.mem_cons_of_mem _ ha'))]
    rfl

/-- The tail of `process_result`'s per-record loop once extraction has
succeeded with a nonempty, duplicate-free pair list: every pair becomes a
Metric over the same attribute base. -/
theorem recordCont_ok (static FL : List (String × RVal)) (allowNone : Bool)
    (pairs : List (String × RVal)) (hnd : (pairs.map Prod.fst).Nodup)
    (hne : pairs ≠ []) :
    ((if ((dictOfPairs pairs).map (fun p =>
          ((some p.1 : Option String), (some p.2 : Option RVal)))).isEmpty
      then [((none : Option String), (none : Option RVal))]
      else (dictOfPairs pairs).map (fun p => (some p.1, some p.2))).mapM
      (fun m => if m.2.isNone && !allowNone
        then (Except.error ProcErr.valueError : Except ProcErr MetricRec)
        else Except.ok ⟨kvUnion FL static, m.2, m.1⟩))
    = Except.ok (pairs.map (fun p =>
        (⟨kvUnion FL static, some p.2, some p.1⟩ : MetricRec))) := by
  rw [dictOfPairs_eq_self pairs hnd]
  have hme : (pairs.map (fun p =>
      ((some p.1 : Option String), (some p.2 : Option RVal)))).isEmpty = false := by
    rcases pairs with _ | ⟨p, rest⟩
    · exact absurd rfl hne
    · rfl
  rw [hme]
  simp only [Bool.false_eq_true, if_false]
  have hall : ∀ a ∈ pairs.map (fun p =>
      ((some p.1 : Option String), (some p.2 : Option RVal))),
      (fun m : Option String × Option RVal => if m.2.isNone && !allowNone
        then (Except.error ProcErr.valueError : Except ProcErr MetricRec)
        else Except.ok ⟨kvUnion FL static, m.2, m.1⟩) a =
      Except.ok ((fun m : Option String × Option RVal =>
        (⟨kvUnion FL static, m.2, m.1⟩ : MetricRec)) a) := by
    intro a ha
    obtain ⟨p, _, rfl⟩ := List.mem_map.mp ha
    rfl
  rw [mapM_ok_of_forall _ _ _ hall, List.map_map]
  rfl

theorem flat0_chain_ne_nil (kvs : List (String × RVal)) :
    ∀ p ∈ flattenKVs kvs [], p.1 ≠ [] := by
  intro p hp
  obtain ⟨k, v, q, _, _, rfl⟩ := (mem_flat0 kvs p).mp hp
  simp

/-- `extract_metrics` on a well-formed record with separator-free keys:
extraction succeeds, claims each flattened key matching some pattern exactly
once, and the mutated record's flattened keys are exactly the unclaimed
ones. -/
theorem extractMetrics_spec (sep : Char) (kvs : List (String × RVal))
    (fields : List String) (hwf : wfR (.obj kvs) = true)
    (hgood : ∀ p ∈ flattenKVs kvs [], goodParts sep p.1 = true) :
    ∃ (pairs : List (String × RVal)) (kvs' : List (String × RVal)),
      extractMetrics (.obj kvs) sep (some fields) = .ok (pairs, .obj kvs')
      ∧ (pairs.map Prod.fst).Nodup
      ∧ (∀ k, k ∈ pairs.map Prod.fst ↔
          (k ∈ flatJoined sep kvs ∧ ∃ pat ∈ fields, fnmatch k pat = true))
      ∧ flatJoined sep kvs' =
          (flatJoined sep kvs).filter (fun k => decide (k ∉ pairs.map Prod.fst)) := by
  have hinv : extractInv sep (.obj kvs) (flatJoined sep kvs) := by
    refine ⟨⟨kvs, rfl⟩, hwf, ?_, rfl⟩
    intro p hp
    exact ⟨hgood p hp, flat0_chain_ne_nil kvs p hp⟩
  have hpoolnd : (flatJoined sep kvs).Nodup := pool_nodup sep _ _ hinv
  have hdedup : dedupKeys (flatJoined sep kvs) = flatJoined sep kvs :=
    dedupGo_eq_self [] _ hpoolnd (fun _ _ => List.not_mem_nil _)
  obtain ⟨pairs, obj', heq, hnd, hiff, hflat, hinv'⟩ :=
    extractPatterns_spec sep fields (.obj kvs) (flatJoined sep kvs) hinv
  obtain ⟨⟨kvs', rfl⟩, _, _, _⟩ := hinv'
  refine ⟨pairs, kvs', ?_, hnd, hiff, ?_⟩
  · rw [extractMetrics]
    rw [show (some fields).getD [] = fields from rfl, hdedup, heq]
    rfl
  · have : flatJoined sep kvs' = (flatV (RVal.obj kvs')).map (fun p => joinStrs sep p.1) :=
      rfl
    rw [this, hflat]
    have hswap := List.filter_map (p := fun k => decide (k ∉ pairs.map Prod.fst))
      (fun p : List String × Int => joinStrs sep p.1) (flatV (RVal.obj kvs))
    rw [show (flatJoined sep kvs).filter (fun k => decide (k ∉ pairs.map Prod.fst)) =
      ((flatV (RVal.obj kvs)).map (fun p => joinStrs sep p.1)).filter
        (fun k => decide (k ∉ pairs.map Prod.fst)) from rfl, hswap]
    rfl

/-- `process_result` on one record with at least one matched metric field:
one `Metric` per claimed pair, in claim order, each carrying the same
leftover record (filtered by the optional allow-list) merged with the static
attributes. -/
theorem processRecord_spec (sep : Char) (frame : List (String × RVal))
    (fields : List String) (attrConf : Option (List String))
    (static : List (String × RVal)) (allowNone : Bool)
    (hwf : wfR (.obj frame) = true)
    (hgood : ∀ p ∈ flattenKVs frame [], goodParts sep p.1 = true)
    (hsome : ∃ k ∈ flatJoined sep frame, ∃ pat ∈ fields, fnmatch k pat = true) :
    ∃ (pairs : List (String × RVal)) (kvs' : List (String × RVal)),
      extractMetrics (.obj frame) sep (some fields) = .ok (pairs, .obj kvs')
      ∧ (pairs.map Prod.fst).Nodup
      ∧ (∀ k, k ∈ pairs.map Prod.fst ↔
          (k ∈ flatJoined sep frame ∧ ∃ pat ∈ fields, fnmatch k pat = true))
      ∧ flatJoined sep kvs' =
          (flatJoined sep frame).filter (fun k => decide (k ∉ pairs.map Prod.fst))
      ∧ processRecord sep ⟨some fields, attrConf⟩ static allowNone frame =
          .ok (pairs.map (fun p =>
            ⟨kvUnion (match attrConf with
              | some attr => kvs'.filter (fun q => attr.contains q.1)
              | none => kvs') static, some p.2, some p.1⟩)) := by
  obtain ⟨pairs, kvs', heq, hnd, hiff, hflat⟩ :=
    extractMetrics_spec sep frame fields hwf hgood
  refine ⟨pairs, kvs', heq, hnd, hiff, hflat, ?_⟩
  have hpne : pairs ≠ [] := by
    obtain ⟨k, hk, pat, hpat, hfn⟩ := hsome
    intro hnil
    have := (hiff k).mpr ⟨hk, pat, hpat, hfn⟩
    rw [hnil] at this
    cases this
  unfold processRecord
  rw [heq, except_bind_ok]
  exact recordCont_ok static (match attrConf with
    | some attr => kvs'.filter (fun q => attr.contains q.1)
    | none => kvs') allowNone pairs hnd hpne

theorem not_mem_attrBase (sep : Char) (kvs' static : List (String × RVal))
    (attrConf : Option (List String)) (k : String)
    (h1 : k ∉ flatJoined sep kvs') (h2 : k ∉ flatJoined sep static) :
    k ∉ flatJoined sep (kvUnion (match attrConf with
      | some attr => kvs'.filter (fun q => attr.contains q.1)
      | none => kvs') static) := by
  intro hmem
  rcases mem_flatJoined_kvUnion sep _ static k hmem with hL | hR
  · rcases attrConf with _ | attr
    · exact h1 hL
    · exact h1 (mem_flatJoined_filter sep kvs' _ k hL)
  · exact h2 hR

/-- C1 (amended): provided the raw record is a nested string-keyed mapping
whose mappings have pairwise-distinct keys and which contains no sequences
(both captured by `wfR`), no key on any path contains the configured
separator, and at least one flattened key matches some configured pattern,
metric extraction claims exactly the flattened keys matching some pattern,
each at most once (the claimed-key list has no duplicates, because each
matched key is removed from the remaining pool as it is claimed), the
leftover record keeps exactly the unclaimed keys, `process_result` appends
one Metric per claimed (key, value) pair, and each Metric's attribute
mapping lacks every claimed key that the static attributes do not
themselves carry.  Each proviso is forced by one part of the counterexample
theorem.  The `{a:1,b:2,c:3}` / patterns `["a","b"]` example yields exactly
the two claimed Metrics, both retaining only `c:3`. -/
theorem metric_extraction_spec :
    (∀ (sep : Char) (frame : List (String × RVal)) (fields : List String)
        (attrConf : Option (List String)) (static : List (String × RVal))
        (allowNone : Bool),
      wfR (.obj frame) = true →
      (∀ p ∈ flattenKVs frame [], goodParts sep p.1 = true) →
      (∃ k ∈ flatJoined sep frame, ∃ pat ∈ fields, fnmatch k pat = true) →
      ∃ (pairs kvs' : List (String × RVal)),
        extractMetrics (.obj frame) sep (some fields) = .ok (pairs, .obj kvs')
        ∧ (pairs.map Prod.fst).Nodup
        ∧ (∀ k, k ∈ pairs.map Prod.fst ↔
            (k ∈ flatJoined sep frame ∧ ∃ pat ∈ fields, fnmatch k pat = true))
        ∧ flatJoined sep kvs' =
            (flatJoined sep frame).filter (fun k => decide (k ∉ pairs.map Prod.fst))
        ∧ processRecord sep ⟨some fields, attrConf⟩ static allowNone frame =
            .ok (pairs.map (fun p =>
              ⟨kvUnion (match attrConf with
                | some attr => kvs'.filter (fun q => attr.contains q.1)
                | none => kvs') static, some p.2, some p.1⟩))
        ∧ (∀ k ∈ pairs.map Prod.fst, k ∉ flatJoined sep static →
            k ∉ flatJoined sep (kvUnion (match attrConf with
              | some attr => kvs'.filter (fun q => attr.contains q.1)
              | none => kvs') static)))
    ∧ processResult '.' ⟨some ["a", "b"], none⟩ [] false
        [[("a", RVal.leaf 1), ("b", RVal.leaf 2), ("c", RVal.leaf 3)]] =
      .ok [⟨[("c", RVal.leaf 3)], some (RVal.leaf 1), some "a"⟩,
           ⟨[("c", RVal.leaf 3)], some (RVal.leaf 2), some "b"⟩] := by
  refine ⟨?_, rfl⟩
  intro sep frame fields attrConf static allowNone hwf hgood hsome
  obtain ⟨pairs, kvs', heq, hnd, hiff, hflat, hproc⟩ :=
    processRecord_spec sep frame fields attrConf static allowNone hwf hgood hsome
  refine ⟨pairs, kvs', heq, hnd, hiff, hflat, hproc, ?_⟩
  intro k hk hks
  refine not_mem_attrBase sep kvs' static attrConf k ?_ hks
  intro hmem
  rw [hflat] at hmem
  exact of_decide_eq_true (List.mem_filter.mp hmem).2 hk

/-- C1 counterexamples to the unconditional claim, one per proviso of the
amendment.  (1) A record key containing the separator is matched by the
pattern (so the claim promises a Metric for it), but `extract_metrics`
splits the joined key on the separator before navigating, raises `KeyError`,
and `process_result` yields no Metric at all.  (2) A record holding a
sequence: the flattened key `a.0` matches `a*`, but navigation hits the list
with a string part and raises `TypeError` — again no Metric.  (3) With no
matched key, `process_result` still appends one `{None: None}` pseudo-Metric
when absent metrics are allowed, violating "one Metric per (record, matched
key) pair".  (4) A static attribute sharing a claimed key's name ends up in
the Metric's attributes, violating "attributes lack every extracted key". -/
theorem metric_extraction_counterexample :
    (fnmatch "a.b" "a.b" = true
      ∧ "a.b" ∈ flatJoined '.' [("a.b", RVal.leaf 1)]
      ∧ processResult '.' ⟨some ["a.b"], none⟩ [] false [[("a.b", RVal.leaf 1)]] =
          .error .keyError)
    ∧ (fnmatch "a.0" "a*" = true
      ∧ "a.0" ∈ flatJoined '.' [("a", RVal.arr [RVal.leaf 5])]
      ∧ processResult '.' ⟨some ["a*"], none⟩ [] false [[("a", RVal.arr [RVal.leaf 5])]] =
          .error .typeError)
    ∧ processResult '.' ⟨some ["a"], none⟩ [] true [[("c", RVal.leaf 3)]] =
        .ok [⟨[("c", RVal.leaf 3)], none, none⟩]
    ∧ (processResult '.' ⟨some ["a"], none⟩ [("a", RVal.leaf 99)] false
          [[("a", RVal.leaf 1)]] =
        .ok [⟨[("a", RVal.leaf 99)], some (RVal.leaf 1), some "a"⟩]
      ∧ "a" ∈ flatJoined '.' [("a", RVal.leaf 99)]) :=
  ⟨⟨rfl, by decide, rfl⟩, ⟨rfl, by decide, rfl⟩, rfl, rfl, by decide⟩

theorem metric_extraction_spec_witness :
    ∃ (pairs kvs' : List (String × RVal)),
      extractMetrics (.obj [("a", RVal.leaf 1), ("b", RVal.leaf 2), ("c", RVal.leaf 3)])
          '.' (some ["a", "b"]) = .ok (pairs, .obj kvs')
      ∧ (pairs.map Prod.fst).Nodup
      ∧ (∀ k, k ∈ pairs.map Prod.fst ↔
          (k ∈ flatJoined '.' [("a", RVal.leaf 1), ("b", RVal.leaf 2), ("c", RVal.leaf 3)]
            ∧ ∃ pat ∈ ["a", "b"], fnmatch k pat = true))
      ∧ flatJoined '.' kvs' =
          (flatJoined '.' [("a", RVal.leaf 1), ("b", RVal.leaf 2), ("c", RVal.leaf 3)]).filter
            (fun k => decide (k ∉ pairs.map Prod.fst))
      ∧ processRecord '.' ⟨some ["a", "b"], none⟩ [] false
            [("a", RVal.leaf 1), ("b", RVal.leaf 2), ("c", RVal.leaf 3)] =
          .ok (pairs.map (fun p => ⟨kvUnion kvs' [], some p.2, some p.1⟩))
      ∧ (∀ k ∈ pairs.map Prod.fst, k ∉ flatJoined '.' ([] : List (String × RVal)) →
          k ∉ flatJoined '.' (kvUnion kvs' [])) :=
  metric_extraction_spec.1 '.' [("a", RVal.leaf 1), ("b", RVal.leaf 2), ("c", RVal.leaf 3)]
    ["a", "b"] none [] false (by decide) (by decide) (by decide)

/-- C10 counterexamples to the unconditional claim: a matched metric field
is not always popped out of the record — extraction raises instead and the
record is left unmutated, with no Metric built.  A joined key whose record
key contains the separator raises `KeyError`; a matched chain crossing a
sequence raises `TypeError` (the navigation `reduce(operator.getitem, ...)`
/ `pop` hits the list with a string part). -/
theorem extraction_mutation_counterexample :
    (fnmatch "a.b" "a.b" = true
      ∧ extractMetrics (.obj [("a.b", RVal.leaf 1)]) '.' (some ["a.b"]) =
          .error .keyError)
    ∧ (fnmatch "a.0" "a*" = true
      ∧ extractMetrics (.obj [("a", RVal.arr [RVal.leaf 5])]) '.' (some ["a*"]) =
          .error .typeError) :=
  ⟨⟨rfl, rfl⟩, ⟨rfl, rfl⟩⟩

/-- C10 (amended): on a record that is a nested string-keyed mapping with
pairwise-distinct keys and no sequences, separator-free keys, and at least
one matched field, extraction pops every claimed key out of the record —
the leftover record's flattened keys are exactly the unclaimed ones, so it
no longer contains any claimed key — and `process_result` then reuses that
same leftover record (filtered by the optional allow-list, merged with the
static attributes) as the attribute source of every Metric it builds.
Without the separator-free and sequence-free provisos the pop raises
instead of mutating (the counterexample theorem). -/
theorem extraction_mutates_record_spec :
    ∀ (sep : Char) (frame : List (String × RVal)) (fields : List String)
      (attrConf : Option (List String)) (static : List (String × RVal))
      (allowNone : Bool),
      wfR (.obj frame) = true →
      (∀ p ∈ flattenKVs frame [], goodParts sep p.1 = true) →
      (∃ k ∈ flatJoined sep frame, ∃ pat ∈ fields, fnmatch k pat = true) →
      ∃ (pairs kvs' : List (String × RVal)),
        extractMetrics (.obj frame) sep (some fields) = .ok (pairs, .obj kvs')
        ∧ flatJoined sep kvs' =
            (flatJoined sep frame).filter (fun k => decide (k ∉ pairs.map Prod.fst))
        ∧ (∀ k ∈ pairs.map Prod.fst, k ∉ flatJoined sep kvs')
        ∧ processRecord sep ⟨some fields, attrConf⟩ static allowNone frame =
            .ok (pairs.map (fun p =>
              ⟨kvUnion (match attrConf with
                | some attr => kvs'.filter (fun q => attr.contains q.1)
                | none => kvs') static, some p.2, some p.1⟩)) := by
  intro sep frame fields attrConf static allowNone hwf hgood hsome
  obtain ⟨pairs, kvs', heq, hnd, hiff, hflat, hproc⟩ :=
    processRecord_spec sep frame fields attrConf static allowNone hwf hgood hsome
  refine ⟨pairs, kvs', heq, hflat, ?_, hproc⟩
  intro k hk hmem
  rw [hflat] at hmem
  exact of_decide_eq_true (List.mem_filter.mp hmem).2 hk

theorem extraction_mutates_record_spec_witness :
    ∃ (pairs kvs' : List (String × RVal)),
      extractMetrics (.obj [("a", RVal.leaf 1), ("b", RVal.leaf 2), ("c", RVal.leaf 3)])
          '.' (some ["a", "b"]) = .ok (pairs, .obj kvs')
      ∧ flatJoined '.' kvs' =
          (flatJoined '.' [("a", RVal.leaf 1), ("b", RVal.leaf 2), ("c", RVal.leaf 3)]).filter
            (fun k => decide (k ∉ pairs.map Prod.fst))
      ∧ (∀ k ∈ pairs.map Prod.fst, k ∉ flatJoined '.' kvs')
      ∧ processRecord '.' ⟨some ["a", "b"], none⟩ [] false
            [("a", RVal.leaf 1), ("b", RVal.leaf 2), ("c", RVal.leaf 3)] =
          .ok (pairs.map (fun p => ⟨kvUnion kvs' [], some p.2, some p.1⟩)) :=
  extraction_mutates_record_spec '.'
    [("a", RVal.leaf 1), ("b", RVal.leaf 2), ("c", RVal.leaf 3)]
    ["a", "b"] none [] false (by decide) (by decide) (by decide)

/-! ### Retry semantics (`StreamletTaskBlueprint.run`, task.py:116-132)

`run` wraps one attempt of `streamlet_exec`.  Every Source/Transform/Sink call
happens after `task_data["last_module"]` is set to that module's name, so an
exception escaping the body carries the failing module's name in the request
metadata; `on_failure` (task.py:246-253) reports exactly that name.  Elapsed
wall-clock time is real time and is not modelled. -/

/-- An exception escaping one attempt of the task body: Celery's control
exception `TaskPredicate`, or any other exception, which leaves the failing
module's name in `request.metadata["last_module"]`. -/
inductive TaskExc
  | taskPredicate
  | other (lastModule : String)
deriving Repr, DecidableEq

/-- The outcome of one `run` call as seen by the Celery worker. -/
inductive RunOut
  | done (code : Nat)
  | controlRaise
  | retryRequest (lastModule : String)
deriving Repr, DecidableEq

/-- `StreamletTaskBlueprint.run` (task.py:116-132): a `TaskPredicate` from
the body is re-raised as is, any other exception is turned into a retry
request via `self.retry(throw=False, exc=e)`, and a normal return passes the
state code through. -/
def runAttempt (body : Except TaskExc Nat) : RunOut :=
  match body with
  | .ok code => .done code
  | .error .taskPredicate => .controlRaise
  | .error (.other m) => .retryRequest m

/-- How a task ends, as observed through Celery's states and handlers. -/
inductive TaskEnd
  | finished (code : Nat)
  | propagated
  | failed (lastModule : String)
deriving Repr, DecidableEq

/-- Modelled from the spec: the Celery retry driver around `run`.  The
attempt budget is `1 + max_retries`; each attempt invokes `run` once
(`bodies i` is attempt `i`'s outcome), a retry request with budget left
re-invokes, an exhausted budget ends in the terminal `FAILED` state carrying
the failing module's name (as `on_failure`, task.py:246-253, reports
`request.metadata["last_module"]`), a control exception propagates
immediately, and a normal return finishes with the returned code.  The
second component counts how often the task body was invoked. -/
def driveGo (bodies : Nat → Except TaskExc Nat) : Nat → Nat → TaskEnd × Nat
  | attempt, 0 =>
    match runAttempt (bodies attempt) with
    | .done code => (.finished code, attempt + 1)
    | .controlRaise => (.propagated, attempt + 1)
    | .retryRequest m => (.failed m, attempt + 1)
  | attempt, r + 1 =>
    match runAttempt (bodies attempt) with
    | .done code => (.finished code, attempt + 1)
    | .controlRaise => (.propagated, attempt + 1)
    | .retryRequest _ => driveGo bodies (attempt + 1) r

/-- Modelled from the spec: a task run under Celery with `max_retries`
retries, returning the terminal state and the number of body invocations. -/
def driveTask (bodies : Nat → Except TaskExc Nat) (maxRetries : Nat) : TaskEnd × Nat :=
  driveGo bodies 0 maxRetries

theorem driveGo_always_fails (modname : Nat → String) :
    ∀ (remaining attempt : Nat),
      driveGo (fun i => Except.error (TaskExc.other (modname i))) attempt remaining =
        (.failed (modname (attempt + remaining)), attempt + remaining + 1) := by
  intro remaining
  induction remaining with
  | zero => intro attempt; rfl
  | succ r ih =>
    intro attempt
    show driveGo _ (attempt + 1) r = _
    rw [ih (attempt + 1)]
    have h : attempt + 1 + r = attempt + (r + 1) := by omega
    rw [h]

/-- C3: a task whose body raises a non-control exception on every attempt is
invoked exactly `1 + max_retries` times and then ends in the terminal
`FAILED` state carrying the failing module's name (exactly 3 invocations
when `max_retries = 2`); a `TaskPredicate` control exception bypasses retry
and propagates from the very first `run`. -/
theorem retry_semantics_spec :
    (∀ (maxRetries : Nat) (modname : Nat → String),
      driveTask (fun i => Except.error (TaskExc.other (modname i))) maxRetries =
        (.failed (modname maxRetries), maxRetries + 1))
    ∧ driveTask (fun _ => Except.error (TaskExc.other "transform")) 2 =
        (.failed "transform", 3)
    ∧ (∀ (bodies : Nat → Except TaskExc Nat) (maxRetries : Nat),
        bodies 0 = Except.error TaskExc.taskPredicate →
        driveTask bodies maxRetries = (.propagated, 1))
    ∧ runAttempt (Except.error TaskExc.taskPredicate) = .controlRaise := by
  refine ⟨?_, ?_, ?_, rfl⟩
  · intro maxRetries modname
    rw [driveTask, driveGo_always_fails modname maxRetries 0]
    simp
  · rfl
  · intro bodies maxRetries h
    have hr : runAttempt (bodies 0) = .controlRaise := by rw [h]; rfl
    rw [driveTask]
    cases maxRetries <;> simp [driveGo, hr]

theorem retry_semantics_spec_witness :
    driveTask (fun _ => Except.error TaskExc.taskPredicate) 5 = (.propagated, 1) :=
  retry_semantics_spec.2.2.1 (fun _ => Except.error TaskExc.taskPredicate) 5 rfl

/-! ### MetricFrame freeze and copy

The Frame/Metric implementation file `core/metric.py` is absent from this
source snapshot; only its call sites (`streamlet_exec`, task.py:165-177) and
`tests/test_core/test_metric.py` are present, so the Frame model below is
built from the spec's words and the test's observations (mutation after
`freeze()` raises `TypeError`; the pre-freeze value survives). -/

/-- Modelled from the spec: what a Frame mutation can raise — `TypeError`
for mutating a frozen frame (as `test_dataframe_freeze` observes), or a
dangling frame handle. -/
inductive FrameErr
  | typeError
  | badHandle
deriving Repr, DecidableEq

/-- Modelled from the spec: one MetricFrame — an ordered metric sequence
plus the one-way frozen flag.  Metric payloads are abstracted to `Nat`. -/
structure FrameData where
  metrics : List Nat
  frozen : Bool
deriving Repr, DecidableEq

/-- Modelled from the spec: the store of live frames; a frame handle is an
index, and fresh frames (creations and copies) are appended at the end so
existing handles stay valid. -/
def frameNew (s : List FrameData) : List FrameData × Nat :=
  (s ++ [⟨[], false⟩], s.length)

/-- Modelled from the spec: `frame.append(metric)` — succeeds on a mutable
frame, fails loudly on a frozen one. -/
def frameAppend (s : List FrameData) (i : Nat) (m : Nat) :
    Except FrameErr (List FrameData) :=
  match s[i]? with
  | none => .error .badHandle
  | some f => if f.frozen then .error .typeError
      else .ok (s.set i ⟨f.metrics ++ [m], false⟩)

/-- Modelled from the spec: whole-range replace (`frame[:] = ms`) — succeeds
on a mutable frame, fails loudly on a frozen one. -/
def frameReplaceAll (s : List FrameData) (i : Nat) (ms : List Nat) :
    Except FrameErr (List FrameData) :=
  match s[i]? with
  | none => .error .badHandle
  | some f => if f.frozen then .error .typeError
      else .ok (s.set i ⟨ms, false⟩)

/-- Modelled from the spec: `frame.freeze()` — one-way; the flag is set and
never cleared by any operation. -/
def frameFreeze (s : List FrameData) (i : Nat) : Except FrameErr (List FrameData) :=
  match s[i]? with
  | none => .error .badHandle
  | some f => .ok (s.set i ⟨f.metrics, true⟩)

/-- Modelled from the spec: `frame.copy()` — an independent mutable shallow
clone under a fresh handle, regardless of the original's frozen state. -/
def frameCopy (s : List FrameData) (i : Nat) :
    Except FrameErr (List FrameData × Nat) :=
  match s[i]? with
  | none => .error .badHandle
  | some f => .ok (s ++ [⟨f.metrics, false⟩], s.length)

/-- C4: append and whole-range replace succeed on a mutable frame and update
only it; after `freeze` every mutation attempt raises `TypeError`; `copy`
yields an independent unfrozen clone under a fresh handle, and mutating the
clone leaves every existing frame — the frozen original and any other
sink's copy included — unchanged.  The concrete scenario: create, append,
freeze, a second append fails, a post-freeze copy accepts the append
instead, the original still frozen with its old contents. -/
theorem frame_freeze_spec :
    (∀ (s : List FrameData) (i : Nat) (f : FrameData) (m : Nat),
      s[i]? = some f → f.frozen = false →
      frameAppend s i m = .ok (s.set i ⟨f.metrics ++ [m], false⟩))
    ∧ (∀ (s : List FrameData) (i : Nat) (f : FrameData) (ms : List Nat),
      s[i]? = some f → f.frozen = false →
      frameReplaceAll s i ms = .ok (s.set i ⟨ms, false⟩))
    ∧ (∀ (s : List FrameData) (i : Nat) (f : FrameData),
      s[i]? = some f → f.frozen = true →
      (∀ m, frameAppend s i m = .error .typeError)
      ∧ (∀ ms, frameReplaceAll s i ms = .error .typeError))
    ∧ (∀ (s : List FrameData) (i : Nat) (f : FrameData),
      s[i]? = some f →
      frameCopy s i = .ok (s ++ [⟨f.metrics, false⟩], s.length)
      ∧ ∀ (m : Nat) (s₂ : List FrameData),
        frameAppend (s ++ [⟨f.metrics, false⟩]) s.length m = .ok s₂ →
        ∀ j < s.length, s₂[j]? = s[j]?)
    ∧ (frameAppend [⟨[], false⟩] 0 1 = .ok [⟨[1], false⟩]
      ∧ frameFreeze [⟨[1], false⟩] 0 = .ok [⟨[1], true⟩]
      ∧ frameAppend [⟨[1], true⟩] 0 2 = .error .typeError
      ∧ frameCopy [⟨[1], true⟩] 0 = .ok ([⟨[1], true⟩, ⟨[1], false⟩], 1)
      ∧ frameAppend [⟨[1], true⟩, ⟨[1], false⟩] 1 2 =
          .ok [⟨[1], true⟩, ⟨[1, 2], false⟩]) := by
  refine ⟨?_, ?_, ?_, ?_, rfl, rfl, rfl, rfl, rfl⟩
  · intro s i f m hf hfr
    simp [frameAppend, hf, hfr]
  · intro s i f ms hf hfr
    simp [frameReplaceAll, hf, hfr]
  · intro s i f hf hfr
    constructor
    · intro m
      simp [frameAppend, hf, hfr]
    · intro ms
      simp [frameReplaceAll, hf, hfr]
  · intro s i f hf
    constructor
    · rw [frameCopy, hf]
    · intro m s₂ happ hj hlt
      have hget : (s ++ [(⟨f.metrics, false⟩ : FrameData)])[s.length]? =
          some ⟨f.metrics, false⟩ := by
        rw [List.getElem?_append_right (Nat.le_refl _)]
        simp
      rw [frameAppend, hget] at happ
      simp only [if_neg] at happ
      injection happ with happ'
      rw [← happ']
      rw [List.getElem?_set_ne (by omega)]
      exact List.getElem?_append_left hlt

theorem frame_freeze_spec_witness :
    frameAppend [⟨[5], false⟩] 0 7 = .ok [⟨[5, 7], false⟩]
    ∧ frameAppend [⟨[5], true⟩] 0 7 = .error .typeError :=
  ⟨frame_freeze_spec.1 [⟨[5], false⟩] 0 ⟨[5], false⟩ 7 rfl rfl,
    (frame_freeze_spec.2.2.1 [⟨[5], true⟩] 0 ⟨[5], true⟩ rfl rfl).1 7⟩

/-! ### difflib: `SequenceMatcher.ratio` and `get_close_matches`

`walk_similar_key` (validation/helpers.py:34) searches near matches with
`difflib.get_close_matches(key, keys, n=1, cutoff=0.5)`.  The quick ratios
are upper bounds of `ratio()`, so difflib's filter keeps exactly the keys
whose ratio reaches the cutoff; `heapq.nlargest(1, ...)` keeps the maximal
`(score, key)` pair in lexicographic tuple order (Python compares the key
strings by code point), the earliest occurrence winning exact ties.  The
compared key strings are far below the 200-element threshold, so `autojunk`
never fires. -/

/-- The length of the common prefix of two character lists. -/
def commonRun : List Char → List Char → Nat
  | x :: xs, y :: ys => if x = y then commonRun xs ys + 1 else 0
  | _, _ => 0

/-- The length of the common block of `a`/`b` starting at `(i, j)`, clipped
to the windows ending at `ahi`/`bhi`. -/
def runAt (a b : List Char) (ahi bhi i j : Nat) : Nat :=
  min (commonRun (a.drop i) (b.drop j)) (min (ahi - i) (bhi - j))

/-- `find_longest_match`'s scan: strict improvement over candidates ordered
by start in `a` then start in `b` keeps the earliest maximal block. -/
def bestBlockGo (a b : List Char) (ahi bhi : Nat) :
    List (Nat × Nat) → Nat × Nat × Nat → Nat × Nat × Nat
  | [], best => best
  | (i, j) :: rest, best =>
    if best.2.2 < runAt a b ahi bhi i j then
      bestBlockGo a b ahi bhi rest (i, j, runAt a b ahi bhi i j)
    else bestBlockGo a b ahi bhi rest best

/-- `SequenceMatcher.find_longest_match` on the window `a[alo:ahi]` /
`b[blo:bhi]`: the longest contiguous common block; ties go to the earliest
start in `a`, then the earliest start in `b`. -/
def findLongest (a b : List Char) (alo ahi blo bhi : Nat) : Nat × Nat × Nat :=
  bestBlockGo a b ahi bhi
    ((List.range' alo (ahi - alo)).flatMap
      (fun i => (List.range' blo (bhi - blo)).map (fun j => (i, j))))
    (alo, blo, 0)

/-- The total matched size over `get_matching_blocks`: recursive
longest-block decomposition (the window length bounds the depth). -/
def matchedSize (a b : List Char) : Nat → Nat → Nat → Nat → Nat → Nat
  | 0, _, _, _, _ => 0
  | fuel + 1, alo, ahi, blo, bhi =>
    let t := findLongest a b alo ahi blo bhi
    if t.2.2 = 0 then 0
    else matchedSize a b fuel alo t.1 blo t.2.1 + t.2.2
      + matchedSize a b fuel (t.1 + t.2.2) ahi (t.2.1 + t.2.2) bhi

/-- `ratio()` as the exact fraction `(2*M, len(a)+len(b))`, unreduced. -/
def ratioPair (a b : String) : Nat × Nat :=
  (2 * matchedSize a.toList b.toList (a.toList.length + b.toList.length + 1)
      0 a.toList.length 0 b.toList.length,
    a.toList.length + b.toList.length)

/-- `SequenceMatcher(None, a, b).ratio()` as an exact rational. -/
def smRatio (a b : String) : ℚ :=
  ((ratioPair a b).1 : ℚ) / ((ratioPair a b).2 : ℚ)

/-- The cutoff filter `ratio() >= 0.5`, as the cross-multiplied integer
comparison (the degenerate empty-vs-empty comparison, a
`ZeroDivisionError` in Python, counts as no match). -/
def cutoffOk (p : Nat × Nat) : Bool :=
  decide (0 < p.2) && decide (p.2 ≤ 2 * p.1)

/-- Strict `(score, key)` tuple comparison of exact ratios (denominators
positive at every use): `best < candidate` in Python's tuple order. -/
def rpLess (bp q : Nat × Nat) (bk k : String) : Bool :=
  decide (bp.1 * q.2 < q.1 * bp.2) || (decide (bp.1 * q.2 = q.1 * bp.2) && decide (bk < k))

/-- `get_close_matches(word, keys, n=1, cutoff=0.5)` as a fold: the current
best `(score, key)` pair is replaced exactly by a strictly larger pair in
lexicographic order, so the earliest maximal pair survives. -/
def closeGo (word : String) :
    List String → Option ((Nat × Nat) × String) → Option ((Nat × Nat) × String)
  | [], best => best
  | k :: rest, none =>
    if cutoffOk (ratioPair word k) then closeGo word rest (some (ratioPair word k, k))
    else closeGo word rest none
  | k :: rest, some (bp, bk) =>
    if cutoffOk (ratioPair word k) then
      (if rpLess bp (ratioPair word k) bk k then
        closeGo word rest (some (ratioPair word k, k))
      else closeGo word rest (some (bp, bk)))
    else closeGo word rest (some (bp, bk))

/-- `difflib.get_close_matches(word, keys, n=1, cutoff=0.5)`, at most one
match. -/
def getCloseMatches1 (word : String) (keys : List String) : Option String :=
  (closeGo word keys none).map Prod.snd

theorem cutoffOk_iff (p : Nat × Nat) : cutoffOk p = true ↔ 0 < p.2 ∧ p.2 ≤ 2 * p.1 := by
  rw [cutoffOk, Bool.and_eq_true, decide_eq_true_iff, decide_eq_true_iff]

/-- Cross-multiplied fraction comparison is transitive through a fraction
with positive denominator. -/
theorem crossLe_trans (a b c d e f : Nat) (hd : 0 < d)
    (h1 : a * d ≤ c * b) (h2 : c * f ≤ e * d) : a * f ≤ e * b := by
  have hchain : a * f * d ≤ e * b * d := by
    calc a * f * d = a * d * f := by ring
    _ ≤ c * b * f := Nat.mul_le_mul_right f h1
    _ = c * f * b := by ring
    _ ≤ e * d * b := Nat.mul_le_mul_right b h2
    _ = e * b * d := by ring
  exact Nat.le_of_mul_le_mul_right hchain hd

theorem closeGo_none (word : String) :
    ∀ (l : List String) (best : Option ((Nat × Nat) × String)),
    closeGo word l best = none →
    best = none ∧ ∀ k ∈ l, cutoffOk (ratioPair word k) = false := by
  intro l
  induction l with
  | nil => intro best h; exact ⟨h, by simp⟩
  | cons k rest ih =>
    intro best h
    rcases best with _ | ⟨bp, bk⟩
    · rw [closeGo] at h
      by_cases hc : cutoffOk (ratioPair word k) = true
      · rw [if_pos hc] at h
        exact absurd (ih _ h).1 (by simp)
      · rw [if_neg hc] at h
        obtain ⟨h1, h2⟩ := ih _ h
        refine ⟨rfl, ?_⟩
        intro k' hk'
        rcases List.mem_cons.mp hk' with rfl | hk''
        · exact Bool.eq_false_iff.mpr hc
        · exact h2 k' hk''
    · rw [closeGo] at h
      by_cases hc : cutoffOk (ratioPair word k) = true
      · rw [if_pos hc] at h
        by_cases hrepl : rpLess bp (ratioPair word k) bk k = true
        · rw [if_pos hrepl] at h
          exact absurd (ih _ h).1 (by simp)
        · rw [if_neg hrepl] at h
          exact absurd (ih _ h).1 (by simp)
      · rw [if_neg hc] at h
        exact absurd (ih _ h).1 (by simp)

theorem closeGo_sound (word : String) :
    ∀ (l : List String) (best : Option ((Nat × Nat) × String)),
    (∀ bp bk, best = some (bp, bk) → bp = ratioPair word bk ∧ cutoffOk bp = true) →
    ∀ p m, closeGo word l best = some (p, m) →
      (best = some (p, m) ∨ m ∈ l) ∧ p = ratioPair word m ∧ cutoffOk p = true
      ∧ (∀ k ∈ l, cutoffOk (ratioPair word k) = true →
          (ratioPair word k).1 * p.2 ≤ p.1 * (ratioPair word k).2)
      ∧ (∀ bp bk, best = some (bp, bk) → bp.1 * p.2 ≤ p.1 * bp.2) := by
  intro l
  induction l with
  | nil =>
    intro best hbest p m h
    rw [closeGo] at h
    obtain ⟨h1, h2⟩ := hbest p m h
    refine ⟨Or.inl h, h1, h2, by simp, ?_⟩
    intro bp bk hbk
    rw [h] at hbk
    injection hbk with hbk'
    injection hbk' with e1 _
    rw [e1]
  | cons k rest ih =>
    intro best hbest p m h
    rcases best with _ | ⟨bp, bk⟩
    · rw [closeGo] at h
      by_cases hc : cutoffOk (ratioPair word k) = true
      · rw [if_pos hc] at h
        have hnew : ∀ bp' bk',
            (some (ratioPair word k, k) : Option ((Nat × Nat) × String)) =
            some (bp', bk') → bp' = ratioPair word bk' ∧ cutoffOk bp' = true := by
          intro bp' bk' he
          injection he with he'
          injection he' with e1 e2
          subst e2
          exact ⟨e1.symm, e1 ▸ hc⟩
        obtain ⟨hin, hr, hcut, hub, hbb⟩ := ih _ hnew p m h
        refine ⟨?_, hr, hcut, ?_, by intro bp bk hbk; cases hbk⟩
        · rcases hin with he | hin'
          · injection he with he'
            injection he' with _ e2
            exact Or.inr (e2 ▸ List.mem_cons_self _ _)
          · exact Or.inr (List.mem_cons_of_mem _ hin')
        · intro k' hk' hck'
          rcases List.mem_cons.mp hk' with rfl | hk''
          · exact hbb _ _ rfl
          · exact hub k' hk'' hck'
      · rw [if_neg hc] at h
        obtain ⟨hin, hr, hcut, hub, _⟩ := ih none (by intro _ _ he; cases he) p m h
        refine ⟨?_, hr, hcut, ?_, by intro bp bk hbk; cases hbk⟩
        · rcases hin with he | hin'
          · cases he
          · exact Or.inr (List.mem_cons_of_mem _ hin')
        · intro k' hk' hck'
          rcases List.mem_cons.mp hk' with rfl | hk''
          · exact absurd hck' hc
          · exact hub k' hk'' hck'
    · have hbb0 := hbest bp bk rfl
      have hbkden : 0 < bp.2 := ((cutoffOk_iff bp).mp hbb0.2).1
      rw [closeGo] at h
      by_cases hc : cutoffOk (ratioPair word k) = true
      · rw [if_pos hc] at h
        by_cases hrepl : rpLess bp (ratioPair word k) bk k = true
        · rw [if_pos hrepl] at h
          have hnew : ∀ bp' bk',
              (some (ratioPair word k, k) : Option ((Nat × Nat) × String)) =
              some (bp', bk') → bp' = ratioPair word bk' ∧ cutoffOk bp' = true := by
            intro bp' bk' he
            injection he with he'
            injection he' with e1 e2
            subst e2
            exact ⟨e1.symm, e1 ▸ hc⟩
          obtain ⟨hin, hr, hcut, hub, hbb⟩ := ih _ hnew p m h
          have hbrk : bp.1 * (ratioPair word k).2 ≤ (ratioPair word k).1 * bp.2 := by
            rw [rpLess, Bool.or_eq_true, Bool.and_eq_true,
              decide_eq_true_iff, decide_eq_true_iff] at hrepl
            rcases hrepl with hlt | ⟨heq, _⟩
            · exact hlt.le
            · exact heq.le
          refine ⟨?_, hr, hcut, ?_, ?_⟩
          · rcases hin with he | hin'
            · injection he with he'
              injection he' with _ e2
              exact Or.inr (e2 ▸ List.mem_cons_self _ _)
            · exact Or.inr (List.mem_cons_of_mem _ hin')
          · intro k' hk' hck'
            rcases List.mem_cons.mp hk' with rfl | hk''
            · exact hbb _ _ rfl
            · exact hub k' hk'' hck'
          · intro bp' bk' he
            injection he with he'
            injection he' with e1 _
            subst e1
            have hkden : 0 < (ratioPair word k).2 := ((cutoffOk_iff _).mp hc).1
            exact crossLe_trans _ _ _ _ _ _ hkden hbrk (hbb _ _ rfl)
        · rw [if_neg hrepl] at h
          have hkeep : ∀ bp' bk',
              (some (bp, bk) : Option ((Nat × Nat) × String)) =
              some (bp', bk') → bp' = ratioPair word bk' ∧ cutoffOk bp' = true := by
            intro bp' bk' he
            injection he with he'
            injection he' with e1 e2
            subst e1; subst e2
            exact hbb0
          obtain ⟨hin, hr, hcut, hub, hbb⟩ := ih _ hkeep p m h
          have hkbr : (ratioPair word k).1 * bp.2 ≤ bp.1 * (ratioPair word k).2 := by
            rcases le_or_lt ((ratioPair word k).1 * bp.2) (bp.1 * (ratioPair word k).2)
              with hle | hgt
            · exact hle
            · exact absurd (by
                rw [rpLess, Bool.or_eq_true]
                exact Or.inl (decide_eq_true_iff.mpr hgt)) hrepl
          refine ⟨?_, hr, hcut, ?_, ?_⟩
          · rcases hin with he | hin'
            · exact Or.inl he
            · exact Or.inr (List.mem_cons_of_mem _ hin')
          · intro k' hk' hck'
            rcases List.mem_cons.mp hk' with rfl | hk''
            · exact crossLe_trans _ _ _ _ _ _ hbkden hkbr (hbb _ _ rfl)
            · exact hub k' hk'' hck'
          · intro bp' bk' he
            injection he with he'
            injection he' with e1 _
            subst e1
            exact hbb _ _ rfl
      · rw [if_neg hc] at h
        have hkeep : ∀ bp' bk',
            (some (bp, bk) : Option ((Nat × Nat) × String)) =
            some (bp', bk') → bp' = ratioPair word bk' ∧ cutoffOk bp' = true := by
          intro bp' bk' he
          injection he with he'
          injection he' with e1 e2
          subst e1; subst e2
          exact hbb0
        obtain ⟨hin, hr, hcut, hub, hbb⟩ := ih _ hkeep p m h
        refine ⟨?_, hr, hcut, ?_, ?_⟩
        · rcases hin with he | hin'
          · exact Or.inl he
          · exact Or.inr (List.mem_cons_of_mem _ hin')
        · intro k' hk' hck'
          rcases List.mem_cons.mp hk' with rfl | hk''
          · exact absurd hck' hc
          · exact hub k' hk'' hck'
        · intro bp' bk' he
          injection he with he'
          injection he' with e1 _
          subst e1
          exact hbb _ _ rfl

theorem half_le_smRatio (w k : String) (h : cutoffOk (ratioPair w k) = true) :
    (1 : ℚ)/2 ≤ smRatio w k := by
  obtain ⟨hd, hn⟩ := (cutoffOk_iff _).mp h
  have hdq : (0 : ℚ) < ((ratioPair w k).2 : ℚ) := by exact_mod_cast hd
  rw [smRatio, div_le_div_iff₀ (by norm_num) hdq]
  exact_mod_cast (by omega : 1 * (ratioPair w k).2 ≤ (ratioPair w k).1 * 2)

theorem smRatio_lt_half (w k : String) (h : cutoffOk (ratioPair w k) = false) :
    smRatio w k < 1/2 := by
  by_cases hd : (ratioPair w k).2 = 0
  · rw [smRatio, hd]
    norm_num
  · have hd' : 0 < (ratioPair w k).2 := Nat.pos_of_ne_zero hd
    have h2 : 2 * (ratioPair w k).1 < (ratioPair w k).2 := by
      by_contra hcon
      push_neg at hcon
      rw [(cutoffOk_iff _).mpr ⟨hd', hcon⟩] at h
      cases h
    have hdq : (0 : ℚ) < ((ratioPair w k).2 : ℚ) := by exact_mod_cast hd'
    rw [smRatio, div_lt_div_iff₀ hdq (by norm_num)]
    exact_mod_cast (by omega : (ratioPair w k).1 * 2 < 1 * (ratioPair w k).2)

theorem smRatio_le_of_cross (w k m : String)
    (hk : cutoffOk (ratioPair w k) = true) (hm : cutoffOk (ratioPair w m) = true)
    (hcross : (ratioPair w k).1 * (ratioPair w m).2 ≤
      (ratioPair w m).1 * (ratioPair w k).2) :
    smRatio w k ≤ smRatio w m := by
  have hkd : (0 : ℚ) < ((ratioPair w k).2 : ℚ) := by
    exact_mod_cast ((cutoffOk_iff _).mp hk).1
  have hmd : (0 : ℚ) < ((ratioPair w m).2 : ℚ) := by
    exact_mod_cast ((cutoffOk_iff _).mp hm).1
  rw [smRatio, smRatio, div_le_div_iff₀ hkd hmd]
  exact_mod_cast hcross

/-- The returned close match is a genuine nearest neighbour: it is one of
the keys, its ratio reaches the cutoff 1/2, and no key has a larger
ratio. -/
theorem getCloseMatches1_sound (word : String) (keys : List String) (m : String)
    (h : getCloseMatches1 word keys = some m) :
    m ∈ keys ∧ (1 : ℚ)/2 ≤ smRatio word m ∧ ∀ k ∈ keys, smRatio word k ≤ smRatio word m := by
  rw [getCloseMatches1] at h
  rcases hc : closeGo word keys none with _ | q
  · rw [hc] at h
    cases h
  · rw [hc] at h
    injection h with h'
    obtain ⟨p, m0⟩ := q
    have hm0 : m0 = m := h'
    subst hm0
    obtain ⟨hin, hr, hcut, hub, _⟩ :=
      closeGo_sound word keys none (by intro _ _ he; cases he) p m0 hc
    rw [hr] at hcut hub
    rcases hin with he | hin'
    · cases he
    · refine ⟨hin', half_le_smRatio word m0 hcut, ?_⟩
      intro k hk
      by_cases hck : cutoffOk (ratioPair word k) = true
      · exact smRatio_le_of_cross word k m0 hck hcut (hub k hk hck)
      · exact (smRatio_lt_half word k (Bool.eq_false_iff.mpr hck)).le.trans
          (half_le_smRatio word m0 hcut)

/-- No key within the cutoff means no suggestion. -/
theorem getCloseMatches1_none (word : String) (keys : List String)
    (h : getCloseMatches1 word keys = none) : ∀ k ∈ keys, smRatio word k < 1/2 := by
  rw [getCloseMatches1] at h
  rcases hc : closeGo word keys none with _ | q
  · intro k hk
    exact smRatio_lt_half word k ((closeGo_none word keys none hc).2 k hk)
  · rw [hc] at h
    cases h

/-! ### Validation failure reporting (`core/validation/helpers.py`)

The voluptuous validator itself is an external dependency: the model takes
the validator as a function and transcribes `walk_similar_key`,
`print_validation_error` and `validate` from helpers.py.  A schema is the
already-unwrapped tree (the source's `while hasattr(group, "schema")` loop
strips wrapper objects); an error carries its path, message and class name.
An exception escaping the reporting helpers themselves (`KeyError` /
`IndexError` / `TypeError` / `ValueError` raised on lines 19, 21, 28, 35 of
helpers.py outside the caught `KeyError`) is modelled as `Except.error`. -/

/-- A path component of a voluptuous error: a mapping key or a sequence
index. -/
inductive PathKey
  | pstr (s : String)
  | pint (n : Nat)
deriving Repr, DecidableEq

/-- Python `str(key)` on a path component. -/
def pathKeyStr : PathKey → String
  | .pstr s => s
  | .pint n => toString n

/-- Python truthiness of a path component (`if ... and key:`). -/
def pathKeyTruthy : PathKey → Bool
  | .pstr s => !s.isEmpty
  | .pint n => n != 0

/-- The unwrapped reference-schema tree: a mapping of string keys, a
sequence of alternatives, or a scalar validator. -/
inductive SNode
  | snode (kvs : List (String × SNode))
  | slist (items : List SNode)
  | sleaf

/-- `int(p)` on a path component used as a list index (digit strings
only; anything else raises `ValueError`). -/
def pathKeyInt : PathKey → Except Unit Nat
  | .pint n => .ok n
  | .pstr s =>
    if s.toList ≠ [] ∧ listIsDigit s.toList = true then .ok (natOfDigits s.toList)
    else .error ()

/-- One `group` update of `walk_similar_key`'s loop (helpers.py:17-21):
`group[min(int(p), len(group)-1)]` under a list config, `group[p]`
otherwise; a missing key or index raises. -/
def sGroupStep (group : SNode) (config : YVal) (p : PathKey) : Except Unit SNode :=
  match config with
  | .ylist _ =>
    (match group with
    | .slist items =>
      (match pathKeyInt p with
      | .error u => .error u
      | .ok i =>
        (match items.get? (min i (items.length - 1)) with
        | some g => .ok g
        | none => .error ()))
    | _ => .error ())
  | _ =>
    (match group, p with
    | .snode kvs, .pstr s =>
      (match kvs.lookup s with
      | some g => .ok g
      | none => .error ())
    | _, _ => .error ())

/-- `config[p]`: `.ok none` is the `KeyError` the walk catches; `.error`
is an uncaught `IndexError`/`TypeError`. -/
def yIndex (config : YVal) (p : PathKey) : Except Unit (Option YVal) :=
  match config, p with
  | .ymap kvs, .pstr s => .ok (kvs.lookup s)
  | .ymap _, .pint _ => .ok none
  | .ylist items, .pint n =>
    (match items.get? n with
    | some v => .ok (some v)
    | none => .error ())
  | _, _ => .error ()

/-- `walk_similar_key`'s navigation loop: the group advances first, then the
config; a `KeyError` on the config access breaks out keeping the advanced
group. -/
def walkLoop : SNode → YVal → List PathKey → Except Unit (SNode × YVal)
  | group, config, [] => .ok (group, config)
  | group, config, p :: rest => do
    let g ← sGroupStep group config p
    match ← yIndex config p with
    | none => .ok (g, config)
    | some c => walkLoop g c rest

/-- `group.keys()` if the reached group is a mapping, else `[]`. -/
def sKeys : SNode → List String
  | .snode kvs => kvs.map Prod.fst
  | _ => []

/-- Hex digit (lowercase) of a nibble. -/
def hexDig (n : Nat) : Char :=
  if n < 10 then Char.ofNat (48 + n) else Char.ofNat (87 + n)

/-- One character under Python's `unicode_escape` codec: backslash and the
`\t`/`\n`/`\r` controls get symbolic escapes, other characters outside
printable ASCII get `\xHH`/`\uHHHH`/`\UHHHHHHHH`. -/
def uescChar (c : Char) : List Char :=
  if c = '\\' then ['\\', '\\']
  else if c = '\t' then ['\\', 't']
  else if c = '\n' then ['\\', 'n']
  else if c = '\r' then ['\\', 'r']
  else if c.toNat < 32 ∨ (126 < c.toNat ∧ c.toNat < 256) then
    ['\\', 'x', hexDig (c.toNat / 16 % 16), hexDig (c.toNat % 16)]
  else if 255 < c.toNat ∧ c.toNat < 65536 then
    ['\\', 'u', hexDig (c.toNat / 4096 % 16), hexDig (c.toNat / 256 % 16),
      hexDig (c.toNat / 16 % 16), hexDig (c.toNat % 16)]
  else if 65535 < c.toNat then
    ['\\', 'U', hexDig (c.toNat / 268435456 % 16), hexDig (c.toNat / 16777216 % 16),
      hexDig (c.toNat / 1048576 % 16), hexDig (c.toNat / 65536 % 16),
      hexDig (c.toNat / 4096 % 16), hexDig (c.toNat / 256 % 16),
      hexDig (c.toNat / 16 % 16), hexDig (c.toNat % 16)]
  else [c]

/-- `str(x).encode("unicode_escape").decode()`. -/
def uescape (s : String) : String := (s.toList.flatMap uescChar).asString

mutual

/-- Python `str()` of a YAML value: containers render their elements with
`repr` (strings quoted; quote escaping inside nested strings is not
modelled), `True`/`False`/`None` spelled the Python way. -/
def yStr : YVal → String
  | .ystr s => s
  | .yint n => toString n
  | .ybool b => if b then "True" else "False"
  | .ynull => "None"
  | .ylist items => "[" ++ yReprList items ++ "]"
  | .ymap kvs => "\x7b" ++ yReprMap kvs ++ "\x7d"

/-- Comma-joined `repr` of sequence elements. -/
def yReprList : List YVal → String
  | [] => ""
  | [.ystr s] => "'" ++ s ++ "'"
  | [v] => yStr v
  | .ystr s :: rest => "'" ++ s ++ "', " ++ yReprList rest
  | v :: rest => yStr v ++ ", " ++ yReprList rest

/-- Comma-joined `repr` of mapping entries. -/
def yReprMap : List (String × YVal) → String
  | [] => ""
  | [(k, .ystr s)] => "'" ++ k ++ "': '" ++ s ++ "'"
  | [(k, v)] => "'" ++ k ++ "': " ++ yStr v
  | (k, .ystr s) :: rest => "'" ++ k ++ "': '" ++ s ++ "', " ++ yReprMap rest
  | (k, v) :: rest => "'" ++ k ++ "': " ++ yStr v ++ ", " ++ yReprMap rest

end

/-- `walk_similar_key(schema, config, path, key)` (helpers.py:12-39):
navigate both trees along the path, collect the reached mapping group's
keys, search a close match for the key, and on success preview the
offending value, escaped and truncated to 55 characters plus `...`. -/
def walkSimilarKey (schema : SNode) (config : YVal) (path : List PathKey)
    (key : PathKey) : Except Unit (Option (String × String)) := do
  let gc ← walkLoop schema config path
  match getCloseMatches1 (pathKeyStr key) (sKeys gc.1) with
  | none => .ok none
  | some m =>
    match ← yIndex gc.2 key with
    | none => .error ()
    | some v =>
      let cfg := uescape (yStr v)
      .ok (some (m, if 55 < cfg.length then (cfg.toList.take 55).asString ++ "..." else cfg))

/-- Python `f"{s:c<w}"`: pad right to width `w` with `c`. -/
def padTo (s : String) (w : Nat) (c : Char) : String :=
  s ++ (List.replicate (w - s.length) c).asString

/-- Python `s.endswith(t)` over the character lists. -/
def pyEndsWith (s t : String) : Bool := t.toList.isSuffixOf s.toList

/-- helpers.py:73: append a period unless the message already ends in
`.`, `!` or `?`. -/
def withPeriod (m : String) : String :=
  if pyEndsWith m "." || pyEndsWith m "!" || pyEndsWith m "?" then m else m ++ "."

/-- The 25-column indent of the error line. -/
def spaces25 : String := (List.replicate 25 ' ').asString

/-- `"".join(f"[{s}]" for s in xs)`. -/
def brackets : List String → String
  | [] => ""
  | s :: rest => "[" ++ s ++ "]" ++ brackets rest

/-- One voluptuous `Invalid`: its path, message and class name. -/
structure VErr where
  path : List PathKey
  msg : String
  cls : String

/-- Python `*path, key = error.path`. -/
def splitLast {α : Type} : List α → Option (List α × α)
  | [] => none
  | [x] => some ([], x)
  | x :: y :: rest => (splitLast (y :: rest)).map (fun p => (x :: p.1, p.2))

/-- The two lines `print_validation_error` prints for one error
(helpers.py:48-74): the padded class-plus-field line, then the error line,
its message augmented with the did-you-mean suggestion or the
no-close-matches note when the failure is an unrecognized key. -/
def errLines (schema : SNode) (config : YVal) (e : VErr) : Except Unit (List String) :=
  match splitLast e.path with
  | none =>
    .ok [padTo ("[" ++ e.cls ++ "] ") 25 '╴' ++ "┬🠆 Field: No error path found!",
      spaces25 ++ "└🠆 Error: " ++ withPeriod e.msg]
  | some (ps, key) => do
    let field := brackets ("<>" :: ps.map pathKeyStr) ++ " > " ++ pathKeyStr key
    let msg ←
      if e.msg == "extra keys not allowed" && pathKeyTruthy key then
        match walkSimilarKey schema config ps key with
        | .error u => .error u
        | .ok (some mc) =>
          .ok (e.msg ++ ". Did you mean: `" ++ mc.1 ++ ": " ++ mc.2 ++ "`?")
        | .ok none =>
          .ok (e.msg ++ ". No close matches found for `" ++ pathKeyStr key ++ "`")
      else .ok e.msg
    .ok [padTo ("[" ++ e.cls ++ "] ") 25 '╴' ++ "┬🠆 Field: " ++ field,
      spaces25 ++ "└🠆 Error: " ++ withPeriod msg]

/-- `print_validation_error(schema, configuration, errors)`: the printed
lines over all collected errors. -/
def printValidationError (schema : SNode) (config : YVal) (errs : List VErr) :
    Except Unit (List String) := do
  let ls ← errs.mapM (errLines schema config)
  .ok ls.flatten

/-- `validate(configuration, validator)` (helpers.py:77-92): pass the
validated value through, or report every error and exit with status 2; an
exception escaping the reporting itself crashes the process (status 1). -/
def validate (schema : SNode) (validator : YVal → Except (List VErr) YVal)
    (config : YVal) : Except (List String × Nat) YVal :=
  match validator config with
  | .ok v => .ok v
  | .error errs =>
    match printValidationError schema config errs with
    | .ok lines => .error (lines, 2)
    | .error _ => .error ([], 1)

theorem except_bind_error {α β ε : Type} (e : ε) (f : α → Except ε β) :
    (Except.error e >>= f) = (Except.error e : Except ε β) := rfl

theorem length_asString (l : List Char) : l.asString.length = l.length := rfl

/-- The did-you-mean preview is never longer than 58 characters: the escaped
value is cut at 55 and `...` appended. -/
theorem walkSimilarKey_preview_len (schema : SNode) (config : YVal)
    (path : List PathKey) (key : PathKey) (m cfg : String)
    (h : walkSimilarKey schema config path key = Except.ok (some (m, cfg))) :
    cfg.length ≤ 58 := by
  rw [walkSimilarKey] at h
  rcases hw : walkLoop schema config path with u | gc
  · rw [hw, except_bind_error] at h
    cases h
  · rw [hw, except_bind_ok] at h
    simp only [] at h
    rcases hm : getCloseMatches1 (pathKeyStr key) (sKeys gc.1) with _ | m'
    · rw [hm] at h
      injection h with h'
      cases h'
    · rw [hm] at h
      simp only [] at h
      rcases hy : yIndex gc.2 key with u | ov
      · rw [hy, except_bind_error] at h
        cases h
      · rcases ov with _ | v
        · rw [hy, except_bind_ok] at h
          simp only [] at h
          cases h
        · rw [hy, except_bind_ok] at h
          simp only [] at h
          injection h with h'
          injection h' with h''
          have hcfg : cfg = (if 55 < (uescape (yStr v)).length
              then ((uescape (yStr v)).toList.take 55).asString ++ "..."
              else uescape (yStr v)) := (congrArg Prod.snd h'').symm
          rw [hcfg]
          by_cases hl : 55 < (uescape (yStr v)).length
          · rw [if_pos hl, String.length_append, length_asString, List.length_take]
            have h3 : ("..." : String).length = 3 := rfl
            rw [h3]
            omega
          · rw [if_neg hl]
            omega

/-- `validate` reports and exits 2 whenever the validator rejects and the
reporting helpers do not themselves raise. -/
theorem validate_exit2 (schema : SNode) (validator : YVal → Except (List VErr) YVal)
    (config : YVal) (errs : List VErr) (lines : List String)
    (hval : validator config = Except.error errs)
    (hprint : printValidationError schema config errs = Except.ok lines) :
    validate schema validator config = Except.error (lines, 2) := by
  simp [validate, hval, hprint]

/-- C5: every strictly-invalid configuration is reported — the failing
field's path and message become the two printed lines per error — and the
process exits with status 2, the distinct configuration-error code; for an
unrecognized-key failure the reference schema at the matching path is
searched for a near match of the offending key (difflib ratio at least 1/2,
the best ratio winning), a found match appending a did-you-mean suggestion
whose value preview is escaped and truncated to at most 58 characters, and
no match within the cutoff appending the no-close-matches note instead. -/
theorem validation_failure_spec :
    (∀ (schema : SNode) (validator : YVal → Except (List VErr) YVal) (config : YVal)
        (errs : List VErr) (lines : List String),
      validator config = Except.error errs →
      printValidationError schema config errs = Except.ok lines →
      validate schema validator config = Except.error (lines, 2))
    ∧ (∀ (word : String) (keys : List String) (m : String),
        getCloseMatches1 word keys = some m →
        m ∈ keys ∧ (1 : ℚ)/2 ≤ smRatio word m ∧ ∀ k ∈ keys, smRatio word k ≤ smRatio word m)
    ∧ (∀ (word : String) (keys : List String),
        getCloseMatches1 word keys = none → ∀ k ∈ keys, smRatio word k < 1/2)
    ∧ (∀ (schema : SNode) (config : YVal) (path : List PathKey) (key : PathKey)
        (m cfg : String),
        walkSimilarKey schema config path key = Except.ok (some (m, cfg)) →
        cfg.length ≤ 58)
    ∧ validate (.snode [("name", .sleaf), ("enabled", .sleaf)])
        (fun _ => Except.error [⟨[PathKey.pstr "nme"], "extra keys not allowed", "Invalid"⟩])
        (.ymap [("nme", .ystr "hello")]) =
      Except.error (["[Invalid] ╴╴╴╴╴╴╴╴╴╴╴╴╴╴╴┬🠆 Field: [<>] > nme",
        "                         └🠆 Error: extra keys not allowed. Did you mean: `name: hello`?"], 2)
    ∧ validate (.snode [("name", .sleaf), ("enabled", .sleaf)])
        (fun _ => Except.error [⟨[PathKey.pstr "zzz"], "extra keys not allowed", "Invalid"⟩])
        (.ymap [("zzz", .yint 1)]) =
      Except.error (["[Invalid] ╴╴╴╴╴╴╴╴╴╴╴╴╴╴╴┬🠆 Field: [<>] > zzz",
        "                         └🠆 Error: extra keys not allowed. No close matches found for `zzz`."], 2) := by
  exact ⟨validate_exit2, getCloseMatches1_sound, getCloseMatches1_none,
    walkSimilarKey_preview_len,
    validate_exit2 _ _ _ [⟨[PathKey.pstr "nme"], "extra keys not allowed", "Invalid"⟩] _
      rfl (by rfl),
    validate_exit2 _ _ _ [⟨[PathKey.pstr "zzz"], "extra keys not allowed", "Invalid"⟩] _
      rfl (by rfl)⟩

theorem validation_failure_spec_witness :
    validate (.snode [("name", .sleaf)])
      (fun _ => Except.error [⟨[], "required key not provided", "RequiredFieldInvalid"⟩])
      (.ymap []) =
    Except.error (["[RequiredFieldInvalid] ╴╴┬🠆 Field: No error path found!",
      "                         └🠆 Error: required key not provided."], 2) :=
  validation_failure_spec.1 (.snode [("name", .sleaf)])
    (fun _ => Except.error [⟨[], "required key not provided", "RequiredFieldInvalid"⟩])
    (.ymap []) [⟨[], "required key not provided", "RequiredFieldInvalid"⟩]
    ["[RequiredFieldInvalid] ╴╴┬🠆 Field: No error path found!",
      "                         └🠆 Error: required key not provided."] rfl rfl

end Streamlet
